import Mathlib

/-!
# Haskell-style prototype parser (`parser.go`): a shallow embedding

The Go file `parser.go` holds a tokenizer (`splitPrototypeIntoTokens`) and a
single-pass state machine (`Parse`) that builds an `ast.FuncDecl`.

Modelling conventions.

* A Go `string` is a Lean `String`, i.e. valid UTF-8 text.  `len s` is the
  byte length (`String.utf8ByteSize`).  The only byte accesses of the source,
  `s[0]` and `s[len(s)-1]`, are compared with the one-byte strings `"("` and
  `")"`; on UTF-8 text the first (last) byte is `0x28` (`0x29`) exactly when
  the first (last) character is `'('` (`')'`), so they are modelled by the
  first and last character.  The slices `s[1:]` and `s[:len(s)-1]` are taken
  only after such a comparison succeeded, and drop that one character.
* Pointers are `Option`s (`none` is `nil`); a nil dereference or an index out
  of range is the outcome `Outcome.panic`, an `error` return is
  `Outcome.error`.
* `fmt.Printf` inside `lookBehind` only writes to standard output and is left
  out.
* Positions (Go `int`) are unbounded `Int`s.  `Parse` passes `lookAhead` and
  `lookBehind` the index of `range tokens` or that index minus one, so
  `currentPosition+1` and `currentPosition-1` never reach the bounds of `int`;
  the wrap-around of Go at those bounds is not modelled.
-/

namespace FuncTypes

/-! ## Outcomes of a Go call -/

/-- The error values that `Parse` builds with `fmt.Errorf` and `errors.New`. -/
inductive ParseError where
  | forbiddenCharacter (input : String) (r : Char)
  | expectedOperator (t : String)
  | operatorWithoutParameters
  | typedArgumentWithNoName (pos : Int)
  | missingType (pos : Int)
  | duplicateArgumentName (t : String)
  | trailingConstructor (pos : Int)
  | closeWithNoOpenBlock
  | contentAfterClosingBlock
  | invalidOutputBlock
  deriving DecidableEq, Repr

/-- The two run-time panics the source can raise. -/
inductive Panic where
  | nilDereference
  | indexOutOfRange
  deriving DecidableEq, Repr

/-- Result of running Go code: a value, a returned error, or a panic. -/
inductive Outcome (α : Type) where
  | ok (a : α)
  | error (e : ParseError)
  | panic (p : Panic)
  deriving DecidableEq, Repr

/-- Sequencing of Go statements: an error return or a panic ends the call. -/
def Outcome.bind {α β : Type} (x : Outcome α) (f : α → Outcome β) : Outcome β :=
  match x with
  | .ok a => f a
  | .error e => .error e
  | .panic p => .panic p

instance : Monad Outcome where
  pure := Outcome.ok
  bind := Outcome.bind

/-! ## The `go/ast` values that `Parse` touches -/

/-- An `ast.Field`: `Names` are the `Name`s of its identifiers, `Typ` (the Go
field `Type`) is the `Name` of the `*ast.Ident` stored as its type, `none` when
the type is nil. -/
structure Field where
  Names : List String
  Typ : Option String
  deriving DecidableEq, Repr

/-- An `ast.FieldList`. -/
structure FieldList where
  List : List Field
  deriving DecidableEq, Repr

/-- An `ast.FuncType`; `Params` and `Results` are never assigned by `Parse`. -/
structure FuncType where
  TypeParams : Option FieldList
  deriving DecidableEq, Repr

/-- An `ast.FuncDecl`; `Doc` and `Body` are never assigned by `Parse`;
`Typ` is the Go field `Type`. -/
structure FuncDecl where
  Recv : Option FieldList
  Name : Option String
  Typ : Option FuncType
  deriving DecidableEq, Repr

/-- The constants `FUNC_NAME_STATE ... CLOSE_OUTPUT_BLOCK_STATE`. -/
inductive State where
  | FUNC_NAME_STATE
  | ARG_TYPE_STATE
  | ARG_NAME_STATE
  | OPERATOR_TOKEN_STATE
  | INSTANCE_CONTEXT_TOKEN_STATE
  | FUNC_TYPE_CONSTRUCTOR_TOKEN_STATE
  | CLOSE_OUTPUT_BLOCK_STATE
  deriving DecidableEq, Repr

def OPERATOR_TOKEN : String := "::"
def INSTANCE_CONTEXT : String := "=>"
def FUNC_CONSTRUCTOR : String := "->"
def OPEN_OUTPUT_BLOCK : String := "("
def CLOSE_OUTPUT_BLOCK : String := ")"

/-! ## Library functions of Go used by the source -/

/-- The builtin `len` on a string: its number of bytes. -/
def len (s : String) : Nat := s.utf8ByteSize

/-- Go's `unicode.IsSpace`: the code points with the White_Space property. -/
def IsSpace (r : Char) : Bool :=
  let n := r.toNat
  (0x09 ≤ n && n ≤ 0x0D) || n == 0x20 || n == 0x85 || n == 0xA0 || n == 0x1680 ||
  (0x2000 ≤ n && n ≤ 0x200A) || n == 0x2028 || n == 0x2029 || n == 0x202F ||
  n == 0x205F || n == 0x3000

/-- Go's `strings.TrimSpace`: leading and trailing white space removed. -/
def TrimSpace (s : String) : String :=
  String.mk ((s.data.dropWhile IsSpace).reverse.dropWhile IsSpace).reverse

/-- Go's `strings.Split(s, sep)` for a separator of one ASCII character. -/
def Split (s : String) (sep : Char) : List String :=
  (s.data.splitOn sep).map String.mk

/-- Go's `strings.ContainsRune`. -/
def ContainsRune (s : String) (r : Char) : Bool := s.data.contains r

/-! ## The tokenizer -/

/-- Body of the `for` loop of `splitPrototypeIntoTokens`: what one element of
`spaceSplit` appends to `tokens`. -/
def splitStep (tokens : List String) (chunk : String) : List String :=
  if len chunk > 1 then
    if chunk.data.head? = some '(' then
      (tokens ++ [OPEN_OUTPUT_BLOCK]) ++ [String.mk chunk.data.tail]
    else if chunk.data.getLast? = some ')' then
      (tokens ++ [String.mk chunk.data.dropLast]) ++ [CLOSE_OUTPUT_BLOCK]
    else tokens ++ [chunk]
  else tokens ++ [chunk]

/-- The function `splitPrototypeIntoTokens` of `parser.go`. -/
def splitPrototypeIntoTokens (funcPrototype : String) : List String :=
  if TrimSpace funcPrototype = "" then []
  else (Split funcPrototype ' ').foldl splitStep []

/-! ## Helpers of the parser -/

/-- Indexing a slice of strings with a Go `int`. -/
def index (xs : List String) (i : Int) : Outcome String :=
  if 0 ≤ i ∧ i < xs.length then .ok (xs.getD i.toNat "") else .panic .indexOutOfRange

/-- The function `lookAhead` of `parser.go` (positions are unbounded, see the
modelling conventions). -/
def lookAhead (currentPosition : Int) (funcPrototype : List String) : Outcome String :=
  if currentPosition + 1 < funcPrototype.length then index funcPrototype (currentPosition + 1)
  else .ok ""

/-- The function `lookBehind` of `parser.go`, without its `fmt.Printf`
(positions are unbounded, see the modelling conventions). -/
def lookBehind (currentPosition : Int) (funcPrototype : List String) : Outcome String :=
  if currentPosition - 1 ≥ 0 then index funcPrototype (currentPosition - 1)
  else .ok ""

/-- The function `containsForbiddenCharacter` of `parser.go`; `none` is the
nil error. -/
def containsForbiddenCharacter (input : String) : Option ParseError :=
  if ContainsRune input ',' then some (.forbiddenCharacter input ',')
  else if len input > 1 then
    if ContainsRune input '(' then some (.forbiddenCharacter input '(')
    else if ContainsRune input ')' then some (.forbiddenCharacter input ')')
    else none
  else none

/-- The nested `range` loops that look for the name `t` in a list of fields. -/
def hasName (fields : List Field) (t : String) : Bool :=
  fields.any fun param => param.Names.any fun name => name == t

/-- The assignment `List[len(List)-1].Names = append(List[len(List)-1].Names, t)`. -/
def appendNameToLast : List Field → String → Outcome (List Field)
  | [], _ => .panic .indexOutOfRange
  | [f], t => .ok [{ f with Names := f.Names ++ [t] }]
  | f :: g :: fs, t => (appendNameToLast (g :: fs) t).bind fun r => .ok (f :: r)

/-! ## The parser -/

/-- The local variables of `Parse` that live across loop iterations. -/
structure Locals where
  funcDecleration : FuncDecl
  fieldsBuffer : FieldList
  inOutputBlock : Bool
  previousTypeDescription : String
  currentState : State
  deriving DecidableEq, Repr

/-- The locals of `Parse` on entry to the loop. -/
def initialLocals : Locals :=
  { funcDecleration := { Recv := none, Name := none, Typ := none }
    fieldsBuffer := { List := [] }
    inOutputBlock := false
    previousTypeDescription := ""
    currentState := .FUNC_NAME_STATE }

/-- The first `switch` of the loop body: a literal token forces the state. -/
def forcedState (t : String) (currentState : State) : State :=
  if t = OPERATOR_TOKEN then .OPERATOR_TOKEN_STATE
  else if t = INSTANCE_CONTEXT then .INSTANCE_CONTEXT_TOKEN_STATE
  else if t = FUNC_CONSTRUCTOR then .FUNC_TYPE_CONSTRUCTOR_TOKEN_STATE
  else if t = CLOSE_OUTPUT_BLOCK then .CLOSE_OUTPUT_BLOCK_STATE
  else currentState

/-- The duplicate-name check of the type-inference branch of `ARG_TYPE_STATE`:
inside an output block the name is looked up in `Recv` (when it is not nil),
outside in `Type.TypeParams` (when it is not nil). -/
def duplicateCheck (v : Locals) (t : String) : Outcome Bool :=
  if v.inOutputBlock then
    match v.funcDecleration.Recv with
    | some recv => .ok (hasName recv.List t)
    | none => .ok false
  else
    match v.funcDecleration.Typ with
    | none => .panic .nilDereference
    | some ty =>
      match ty.TypeParams with
      | some typeParams => .ok (hasName typeParams.List t)
      | none => .ok false

/-- The `ARG_TYPE_STATE` case of the second `switch`. -/
def argTypeCase (tokens : List String) (pos : Int) (t : String) (v : Locals) : Outcome Locals := do
  let nextToken ← lookAhead pos tokens
  if TrimSpace nextToken = "" ∨ nextToken = FUNC_CONSTRUCTOR ∨ nextToken = CLOSE_OUTPUT_BLOCK then
    let previousToken ← lookBehind pos tokens
    let previousToken ←
      if previousToken = OPEN_OUTPUT_BLOCK then lookBehind (pos - 1) tokens else pure previousToken
    if previousToken = FUNC_CONSTRUCTOR ∧ v.previousTypeDescription = "" then
      .error (.typedArgumentWithNoName pos)
    else if v.previousTypeDescription = "" then
      .error (.missingType pos)
    else
      let duplicate ← duplicateCheck v t
      if duplicate then .error (.duplicateArgumentName t)
      else
        pure { v with
          fieldsBuffer :=
            { List := v.fieldsBuffer.List ++ [{ Names := [t], Typ := some v.previousTypeDescription }] } }
  else
    pure { v with
      fieldsBuffer := { List := v.fieldsBuffer.List ++ [{ Names := [], Typ := some t }] }
      previousTypeDescription := t
      currentState := .ARG_NAME_STATE }

/-- The second `switch` of the loop body, on the (possibly forced) state. -/
def stateCase (tokens : List String) (pos : Int) (t : String) (v : Locals) : Outcome Locals :=
  match v.currentState with
  | .FUNC_NAME_STATE =>
    .ok { v with
      funcDecleration := { v.funcDecleration with Name := some t }
      currentState := .OPERATOR_TOKEN_STATE }
  | .OPERATOR_TOKEN_STATE =>
    if t ≠ OPERATOR_TOKEN then .error (.expectedOperator t)
    else do
      let next ← lookAhead pos tokens
      if next = "" then .error .operatorWithoutParameters
      else
        pure { v with
          funcDecleration := { v.funcDecleration with Typ := some { TypeParams := none } }
          currentState := .ARG_TYPE_STATE }
  | .INSTANCE_CONTEXT_TOKEN_STATE =>
    match v.funcDecleration.Recv with
    | none => .panic .nilDereference
    | some recv =>
      .ok { v with
        funcDecleration :=
          { v.funcDecleration with
            Recv := some { List := recv.List ++ [{ Names := [t], Typ := none }] } }
        currentState := .ARG_TYPE_STATE }
  | .ARG_TYPE_STATE => argTypeCase tokens pos t v
  | .ARG_NAME_STATE =>
    if hasName v.fieldsBuffer.List t then .error (.duplicateArgumentName t)
    else do
      let fields ← appendNameToLast v.fieldsBuffer.List t
      pure { v with fieldsBuffer := { List := fields } }
  | .FUNC_TYPE_CONSTRUCTOR_TOKEN_STATE => do
    let next ← lookAhead pos tokens
    if next = "" then .error (.trailingConstructor pos)
    else if ¬ v.inOutputBlock then
      match v.funcDecleration.Typ with
      | none => .panic .nilDereference
      | some ty =>
        let typeParams : FieldList :=
          match ty.TypeParams with
          | none => { List := [] }
          | some typeParams => typeParams
        pure { v with
          funcDecleration :=
            { v.funcDecleration with
              Typ := some { TypeParams := some { List := typeParams.List ++ v.fieldsBuffer.List } } }
          fieldsBuffer := { List := [] }
          currentState := .ARG_TYPE_STATE }
    else pure { v with currentState := .ARG_TYPE_STATE }
  | .CLOSE_OUTPUT_BLOCK_STATE =>
    if ¬ v.inOutputBlock then .error .closeWithNoOpenBlock
    else if pos ≠ (tokens.length : Int) - 1 then .error .contentAfterClosingBlock
    else
      .ok { v with
        funcDecleration := { v.funcDecleration with Recv := some v.fieldsBuffer }
        fieldsBuffer := { List := [] } }

/-- One iteration of the `for pos, t := range tokens` loop of `Parse`. -/
def step (tokens : List String) (pos : Int) (t : String) (v : Locals) : Outcome Locals :=
  match containsForbiddenCharacter t with
  | some err => .error err
  | none =>
    if t = OPEN_OUTPUT_BLOCK then .ok { v with inOutputBlock := true }
    else stateCase tokens pos t { v with currentState := forcedState t v.currentState }

/-- The `range` loop of `Parse`: `rest` are the tokens from position `pos` on. -/
def parseLoop (tokens : List String) : Nat → List String → Locals → Outcome Locals
  | _, [], v => .ok v
  | pos, t :: rest, v =>
    match step tokens pos t v with
    | .ok v' => parseLoop tokens (pos + 1) rest v'
    | .error e => .error e
    | .panic p => .panic p

/-- The code of `Parse` after the loop. -/
def finish (v : Locals) : Outcome FuncDecl :=
  match v.fieldsBuffer.List with
  | [] => .ok v.funcDecleration
  | [field] =>
    if field.Names.length = 1 ∨ v.inOutputBlock then
      .ok { v.funcDecleration with Recv := some v.fieldsBuffer }
    else .error .invalidOutputBlock
  | _ :: _ :: _ => .error .invalidOutputBlock

/-- The parser run on a token sequence. -/
def parseTokens (tokens : List String) : Outcome FuncDecl :=
  (parseLoop tokens 0 tokens initialLocals).bind finish

/-- The function `Parse` of `parser.go`. -/
def Parse (funcPrototype : String) : Outcome FuncDecl :=
  parseTokens (splitPrototypeIntoTokens funcPrototype)

/-! ## Reading a signature off the result -/

/-- The input parameters: the fields of `Type.TypeParams`. -/
def FuncDecl.inputs (d : FuncDecl) : List Field :=
  match d.Typ with
  | none => []
  | some ty =>
    match ty.TypeParams with
    | none => []
    | some typeParams => typeParams.List

/-- The output parameters: the fields of `Recv`. -/
def FuncDecl.outputs (d : FuncDecl) : List Field :=
  match d.Recv with
  | none => []
  | some recv => recv.List

/-- A parameter `{name : type}`. -/
def param (name type : String) : Field := { Names := [name], Typ := some type }

/-! ## Vocabulary of the specification and of the statements -/

/-- What one space-delimited chunk contributes to the token sequence, in the
words of the specification: an open split for a chunk longer than one
character that starts with `(`, else a close split for one that ends with
`)`, else the chunk itself. -/
def chunkTokens (chunk : String) : List String :=
  if chunk.length > 1 ∧ chunk.data.head? = some '(' then ["(", String.mk (chunk.data.drop 1)]
  else if chunk.length > 1 ∧ chunk.data.getLast? = some ')' then
    [String.mk chunk.data.dropLast, ")"]
  else [chunk]

/-- The reference tokenizer of the specification. -/
def tokenizeReference (s : String) : List String :=
  if s.data.all IsSpace then [] else ((Split s ' ').map chunkTokens).flatten

/-- An ordinary identifier: a non-empty string without white space, `,`, `(`
or `)` that is none of the literal tokens `::`, `=>`, `->`. -/
def ordinary (s : String) : Bool :=
  s != "" && s.data.all (fun c => !IsSpace c && c != ',' && c != '(' && c != ')') &&
  s != OPERATOR_TOKEN && s != INSTANCE_CONTEXT && s != FUNC_CONSTRUCTOR

/-- Words written one after the other with a single space in between. -/
def unwords : List String → String
  | [] => ""
  | [w] => w
  | w :: w' :: ws => w ++ " " ++ unwords (w' :: ws)

/-- The names of all parameters of a list of fields, in order. -/
def names (fields : List Field) : List String :=
  (fields.map Field.Names).flatten

/-! ## Words of the signatures, the loop from inside, invariants -/

/-- A word the tokenizer leaves alone and that may be fused with a group symbol. -/
def Plain (w : String) : Prop := w ≠ "" ∧ ∀ c ∈ w.data, c ≠ ' ' ∧ c ≠ '(' ∧ c ≠ ')'

/-- The words with `)` fused to the last one. -/
def closeLast : List String → List String
  | [] => []
  | [w] => [w ++ ")"]
  | w :: w' :: ws => w :: closeLast (w' :: ws)

/-- The words the parser's tokens are made of. -/
def Word (w : String) : Prop := Plain w ∨ w = "(" ∨ w = ")"

/-- The loop of `Parse` started at the end of `pre`, with `rest` still to read. -/
def run (pre rest : List String) (v : Locals) : Outcome Locals :=
  parseLoop (pre ++ rest) pre.length rest v

/-- The fields of a possibly nil field list. -/
def fieldsOf (l : Option FieldList) : List Field :=
  match l with
  | none => []
  | some fl => fl.List

/-- The words `T1 a1 -> ... -> Tn an ->` of typed inputs. -/
def typedInputs (params : List (String × String)) : List String :=
  (params.map fun p => [p.1, p.2, FUNC_CONSTRUCTOR]).flatten

/-- The words `-> n1 -> ... -> nk` of parameters whose type is elided. -/
def inferredParams (ns : List String) : List String :=
  (ns.map fun n => [FUNC_CONSTRUCTOR, n]).flatten

/-- The words `-> U2 b2 -> ... -> Um bm` of further typed outputs. -/
def typedOutputs (outs : List (String × String)) : List String :=
  (outs.map fun p => [FUNC_CONSTRUCTOR, p.1, p.2]).flatten

/-- The successful iterations of the loop of `Parse`, one constructor per branch
of the source that reaches the end of the loop body.  `t` is the token read,
`pre` the tokens before it and `rest` those after it. -/
inductive Transition (pre : List String) (t : String) (rest : List String) :
    Locals → Locals → Prop where
  | openBlock (fd : FuncDecl) (buf : FieldList) (blk : Bool) (prev : String) (st : State) :
      t = OPEN_OUTPUT_BLOCK →
      Transition pre t rest ⟨fd, buf, blk, prev, st⟩ ⟨fd, buf, true, prev, st⟩
  | funcName (recv : Option FieldList) (name : Option String) (typ : Option FuncType)
      (buf : FieldList) (blk : Bool) (prev : String) (st : State) :
      t ≠ OPEN_OUTPUT_BLOCK → forcedState t st = .FUNC_NAME_STATE →
      Transition pre t rest ⟨⟨recv, name, typ⟩, buf, blk, prev, st⟩
        ⟨⟨recv, some t, typ⟩, buf, blk, prev, .OPERATOR_TOKEN_STATE⟩
  | operator (recv : Option FieldList) (name : Option String) (typ : Option FuncType)
      (buf : FieldList) (blk : Bool) (prev : String) (st : State) :
      t = OPERATOR_TOKEN → rest.head?.getD "" ≠ "" →
      Transition pre t rest ⟨⟨recv, name, typ⟩, buf, blk, prev, st⟩
        ⟨⟨recv, name, some ⟨none⟩⟩, buf, blk, prev, .ARG_TYPE_STATE⟩
  | instanceContext (recv : FieldList) (name : Option String) (typ : Option FuncType)
      (buf : FieldList) (blk : Bool) (prev : String) (st : State) :
      t ≠ OPEN_OUTPUT_BLOCK → forcedState t st = .INSTANCE_CONTEXT_TOKEN_STATE →
      Transition pre t rest ⟨⟨some recv, name, typ⟩, buf, blk, prev, st⟩
        ⟨⟨some ⟨recv.List ++ [⟨[t], none⟩]⟩, name, typ⟩, buf, blk, prev, .ARG_TYPE_STATE⟩
  | argType (fd : FuncDecl) (buf : List Field) (blk : Bool) (prev : String) (st : State) :
      t ≠ OPEN_OUTPUT_BLOCK → forcedState t st = .ARG_TYPE_STATE →
      TrimSpace (rest.head?.getD "") ≠ "" → rest.head?.getD "" ≠ FUNC_CONSTRUCTOR →
      rest.head?.getD "" ≠ CLOSE_OUTPUT_BLOCK →
      Transition pre t rest ⟨fd, ⟨buf⟩, blk, prev, st⟩
        ⟨fd, ⟨buf ++ [⟨[], some t⟩]⟩, blk, t, .ARG_NAME_STATE⟩
  | infer (fd : FuncDecl) (buf : List Field) (blk : Bool) (prev : String) (st : State) :
      t ≠ OPEN_OUTPUT_BLOCK → forcedState t st = .ARG_TYPE_STATE → prev ≠ "" →
      duplicateCheck ⟨fd, ⟨buf⟩, blk, prev, .ARG_TYPE_STATE⟩ t = .ok false →
      Transition pre t rest ⟨fd, ⟨buf⟩, blk, prev, st⟩
        ⟨fd, ⟨buf ++ [⟨[t], some prev⟩]⟩, blk, prev, .ARG_TYPE_STATE⟩
  | argName (fd : FuncDecl) (init : List Field) (ns : List String) (ty : Option String)
      (blk : Bool) (prev : String) (st : State) :
      t ≠ OPEN_OUTPUT_BLOCK → forcedState t st = .ARG_NAME_STATE →
      hasName (init ++ [⟨ns, ty⟩]) t = false →
      Transition pre t rest ⟨fd, ⟨init ++ [⟨ns, ty⟩]⟩, blk, prev, st⟩
        ⟨fd, ⟨init ++ [⟨ns ++ [t], ty⟩]⟩, blk, prev, .ARG_NAME_STATE⟩
  | flush (recv : Option FieldList) (name : Option String) (tp : Option FieldList)
      (buf : List Field) (prev : String) (st : State) :
      t ≠ OPEN_OUTPUT_BLOCK → forcedState t st = .FUNC_TYPE_CONSTRUCTOR_TOKEN_STATE →
      rest.head?.getD "" ≠ "" →
      Transition pre t rest ⟨⟨recv, name, some ⟨tp⟩⟩, ⟨buf⟩, false, prev, st⟩
        ⟨⟨recv, name, some ⟨some ⟨fieldsOf tp ++ buf⟩⟩⟩, ⟨[]⟩, false, prev, .ARG_TYPE_STATE⟩
  | arrowInBlock (fd : FuncDecl) (buf : FieldList) (prev : String) (st : State) :
      t ≠ OPEN_OUTPUT_BLOCK → forcedState t st = .FUNC_TYPE_CONSTRUCTOR_TOKEN_STATE →
      rest.head?.getD "" ≠ "" →
      Transition pre t rest ⟨fd, buf, true, prev, st⟩ ⟨fd, buf, true, prev, .ARG_TYPE_STATE⟩
  | close (recv : Option FieldList) (name : Option String) (typ : Option FuncType)
      (buf : FieldList) (prev : String) (st : State) :
      t ≠ OPEN_OUTPUT_BLOCK → forcedState t st = .CLOSE_OUTPUT_BLOCK_STATE → rest = [] →
      Transition pre t rest ⟨⟨recv, name, typ⟩, buf, true, prev, st⟩
        ⟨⟨some buf, name, typ⟩, ⟨[]⟩, true, prev, .CLOSE_OUTPUT_BLOCK_STATE⟩

/-- A field whose type is set and whose names and type text are all taken from
the list `tokens`. -/
def FromTokens (tokens : List String) (fld : Field) : Prop :=
  (∀ n ∈ fld.Names, n ∈ tokens) ∧ ∃ T, fld.Typ = some T ∧ T ∈ tokens

/-- Invariant of the loop over `tokens`: `Recv` stays nil until the last token,
the recorded type description is empty or a token, and every field built so far
is made of tokens. -/
def InvTokens (tokens rest : List String) (v : Locals) : Prop :=
  (v.funcDecleration.Recv ≠ none → rest = []) ∧
  (v.previousTypeDescription = "" ∨ v.previousTypeDescription ∈ tokens) ∧
  (∀ fld ∈ v.fieldsBuffer.List, FromTokens tokens fld) ∧
  (∀ fld ∈ v.funcDecleration.inputs, FromTokens tokens fld) ∧
  (∀ fld ∈ v.funcDecleration.outputs, FromTokens tokens fld)

/-- Invariant of the loop about the group symbols: the flag is set only after a
token `(`, the state is `CLOSE_OUTPUT_BLOCK_STATE` and `Recv` is assigned only
after a last token `)`, and a token `)` already read is the last token and has
a token `(` before it. -/
def InvGroup (pre rest : List String) (v : Locals) : Prop :=
  (v.inOutputBlock = true → OPEN_OUTPUT_BLOCK ∈ pre) ∧
  (v.currentState = .CLOSE_OUTPUT_BLOCK_STATE → rest = []) ∧
  (v.funcDecleration.Recv ≠ none → pre.getLast? = some CLOSE_OUTPUT_BLOCK ∧ rest = []) ∧
  (∀ p r, pre = p ++ CLOSE_OUTPUT_BLOCK :: r → r = [] ∧ rest = [] ∧ OPEN_OUTPUT_BLOCK ∈ p)

/-- Invariant of the loop about the name, for a first token `first` that is
neither `(` nor `::`: once a token is read the state is not `FUNC_NAME_STATE`
again and the name is `first`. -/
def InvName (first : String) (pre : List String) (v : Locals) : Prop :=
  (pre = [] → v = initialLocals) ∧
  (pre ≠ [] → v.currentState ≠ .FUNC_NAME_STATE ∧ v.funcDecleration.Name = some first)

/-! # Theorems -/

/-! ## The tokenizer equals its reference (C1) -/

theorem len_cons (c : Char) (cs : List Char) : len ⟨c :: cs⟩ = len ⟨cs⟩ + c.utf8Size := by
  simp [len, String.utf8ByteSize, String.utf8ByteSize.go]

theorem len_nil : len ⟨[]⟩ = 0 := by
  simp [len, String.utf8ByteSize, String.utf8ByteSize.go]

theorem dropWhile_all_iff (p : Char → Bool) (l : List Char) :
    (∀ x ∈ l.dropWhile p, p x = true) ↔ l.dropWhile p = [] := by
  constructor
  · intro h
    cases hd : l.dropWhile p with
    | nil => rfl
    | cons a t =>
      have hne : l.dropWhile p ≠ [] := by simp [hd]
      have h1 := List.head_dropWhile_not p l hne
      have h2 := h ((l.dropWhile p).head hne) (List.head_mem hne)
      simp [h2] at h1
  · intro h; simp [h]

theorem TrimSpace_eq_empty_iff (s : String) : TrimSpace s = "" ↔ s.data.all IsSpace = true := by
  have e : TrimSpace s = "" ↔ ((s.data.dropWhile IsSpace).reverse.dropWhile IsSpace) = [] := by
    unfold TrimSpace
    constructor
    · intro h
      have := congrArg String.data h
      simpa using this
    · intro h; rw [h]; rfl
  rw [e, List.dropWhile_eq_nil_iff]
  simp only [List.mem_reverse]
  rw [dropWhile_all_iff, List.dropWhile_eq_nil_iff, List.all_eq_true]

theorem splitStep_eq (tokens : List String) (chunk : String) :
    splitStep tokens chunk = tokens ++ chunkTokens chunk := by
  obtain ⟨cs⟩ := chunk
  match cs with
  | [] => simp [splitStep, chunkTokens, len_nil]
  | [x] =>
    have h1 : ('(' : Char).utf8Size = 1 := by decide
    have h2 : (')' : Char).utf8Size = 1 := by decide
    simp only [splitStep, chunkTokens, len_cons, len_nil, String.length]
    by_cases hx : x = '('
    · subst hx; simp [h1]
    · by_cases hy : x = ')'
      · subst hy; simp [h2]
      · simp [hx, hy]
  | x :: y :: r =>
    have hx := Char.utf8Size_pos x
    have hy := Char.utf8Size_pos y
    have : len ⟨x :: y :: r⟩ > 1 := by rw [len_cons, len_cons]; omega
    simp only [splitStep, chunkTokens, this, String.length, OPEN_OUTPUT_BLOCK, CLOSE_OUTPUT_BLOCK]
    simp
    split_ifs <;> rfl

theorem foldl_splitStep (chunks : List String) (tokens : List String) :
    chunks.foldl splitStep tokens = tokens ++ (chunks.map chunkTokens).flatten := by
  induction chunks generalizing tokens with
  | nil => simp
  | cons c cs ih => simp [List.foldl_cons, ih, splitStep_eq]

theorem splitPrototypeIntoTokens_eq_reference (s : String) :
    splitPrototypeIntoTokens s = tokenizeReference s := by
  unfold splitPrototypeIntoTokens tokenizeReference
  by_cases h : s.data.all IsSpace = true
  · rw [if_pos ((TrimSpace_eq_empty_iff s).2 h), if_pos h]
  · rw [if_neg (fun h' => h ((TrimSpace_eq_empty_iff s).1 h')), if_neg h, foldl_splitStep]
    simp

/-- C1: `splitPrototypeIntoTokens` equals its reference definition on every
string: the empty sequence for an empty or white-space-only string, otherwise
the concatenation, over the chunks between single spaces (empty chunks kept),
of `["(", chunk without its first character]` for a chunk longer than one
character that starts with `(`, else `[chunk without its last character, ")"]`
for one that ends with `)`, else `[chunk]`.  A chunk with both symbols only
gets the open split: `"(b)"` becomes `["(", "b)"]`. -/
theorem C1_splitPrototypeIntoTokens_eq_reference :
    (∀ s : String, splitPrototypeIntoTokens s = tokenizeReference s) ∧
    splitPrototypeIntoTokens "(b)" = ["(", "b)"] :=
  ⟨splitPrototypeIntoTokens_eq_reference, by decide⟩

/-! ## The tokens of a line of words -/

theorem data_ne_nil {w : String} (h : w ≠ "") : w.data ≠ [] := by
  intro h'
  apply h
  cases w
  simp_all

theorem unwords_cons_cons (w w' : String) (ws : List String) :
    unwords (w :: w' :: ws) = w ++ " " ++ unwords (w' :: ws) := rfl

theorem data_unwords (ws : List String) :
    (unwords ws).data = [' '].intercalate (ws.map String.data) := by
  induction ws with
  | nil => rfl
  | cons w ws ih =>
    cases ws with
    | nil => simp [unwords, List.intercalate]
    | cons w' ws =>
      rw [unwords_cons_cons]
      simp only [String.data_append, ih]
      simp [List.intercalate, List.intersperse]

theorem Split_unwords (ws : List String) (hne : ws ≠ []) (h : ∀ w ∈ ws, ' ' ∉ w.data) :
    Split (unwords ws) ' ' = ws := by
  unfold Split
  rw [data_unwords, List.splitOn_intercalate]
  · simp [List.map_map, Function.comp_def]
  · intro l hl
    obtain ⟨w, hw, rfl⟩ := List.mem_map.1 hl
    exact h w hw
  · simpa using hne

theorem mem_data_unwords {ws : List String} {w : String} (hw : w ∈ ws) {c : Char}
    (hc : c ∈ w.data) : c ∈ (unwords ws).data := by
  induction ws with
  | nil => cases hw
  | cons x xs ih =>
    cases xs with
    | nil =>
      simp at hw; subst hw; simpa [unwords] using hc
    | cons y ys =>
      rw [unwords_cons_cons]
      simp only [String.data_append, List.mem_append]
      rcases List.mem_cons.1 hw with rfl | h
      · exact Or.inl (Or.inl hc)
      · exact Or.inr (ih h)

theorem ordinary_iff (s : String) : ordinary s = true ↔
    s ≠ "" ∧ (∀ c ∈ s.data, IsSpace c = false ∧ c ≠ ',' ∧ c ≠ '(' ∧ c ≠ ')') ∧
    s ≠ "::" ∧ s ≠ "=>" ∧ s ≠ "->" := by
  simp [ordinary, OPERATOR_TOKEN, INSTANCE_CONTEXT, FUNC_CONSTRUCTOR, and_assoc]

theorem plain_of_ordinary {s : String} (h : ordinary s = true) : Plain s := by
  obtain ⟨h1, h2, -⟩ := (ordinary_iff s).1 h
  refine ⟨h1, fun c hc => ⟨?_, (h2 c hc).2.2⟩⟩
  rintro rfl
  have := (h2 _ hc).1
  revert this
  decide

theorem chunkTokens_plain {w : String} (h : Plain w) : chunkTokens w = [w] := by
  obtain ⟨cs⟩ := w
  have hne : cs ≠ [] := data_ne_nil h.1
  have h1 : cs.head? ≠ some '(' := by
    intro e
    have := List.mem_of_mem_head? e
    exact (h.2 _ this).2.1 rfl
  have h2 : cs.getLast? ≠ some ')' := by
    intro e
    have := List.mem_of_getLast?_eq_some e
    exact (h.2 _ this).2.2 rfl
  simp [chunkTokens, h1, h2]

theorem chunkTokens_open {w : String} (h : Plain w) : chunkTokens ("(" ++ w) = ["(", w] := by
  obtain ⟨cs⟩ := w
  have hne : cs ≠ [] := data_ne_nil h.1
  have : ("(" ++ (⟨cs⟩ : String)) = ⟨'(' :: cs⟩ := rfl
  rw [this]
  cases cs with
  | nil => exact absurd rfl hne
  | cons c cs => simp [chunkTokens, String.length]

theorem chunkTokens_close {w : String} (h : Plain w) : chunkTokens (w ++ ")") = [w, ")"] := by
  obtain ⟨cs⟩ := w
  have hne : cs ≠ [] := data_ne_nil h.1
  have e : ((⟨cs⟩ : String) ++ ")") = ⟨cs ++ [')']⟩ := rfl
  rw [e]
  have h0 : cs.head? ≠ some '(' := fun e => (h.2 _ (List.mem_of_mem_head? e)).2.1 rfl
  have hl : 0 < cs.length := List.length_pos.2 hne
  simp [chunkTokens, h0, String.length, hl]

theorem unwords_cons (w : String) {ws : List String} (h : ws ≠ []) :
    unwords (w :: ws) = w ++ " " ++ unwords ws := by
  cases ws with
  | nil => exact absurd rfl h
  | cons w' ws => rfl

theorem unwords_append_unwords (xs : List String) {ys : List String} (h : ys ≠ []) :
    unwords (xs ++ [unwords ys]) = unwords (xs ++ ys) := by
  induction xs with
  | nil => simp [unwords]
  | cons x xs ih =>
    rw [List.cons_append, List.cons_append, unwords_cons x (by simp), unwords_cons x (by simp [h]), ih]

theorem open_unwords (w : String) (ws : List String) :
    "(" ++ unwords (w :: ws) = unwords (("(" ++ w) :: ws) := by
  cases ws with
  | nil => rfl
  | cons w' ws => simp [unwords_cons_cons, String.append_assoc]

theorem unwords_close {ws : List String} (h : ws ≠ []) :
    unwords ws ++ ")" = unwords (closeLast ws) := by
  induction ws with
  | nil => exact absurd rfl h
  | cons w ws ih =>
    cases ws with
    | nil => rfl
    | cons w' ws =>
      have : closeLast (w :: w' :: ws) = w :: closeLast (w' :: ws) := rfl
      rw [this, unwords_cons_cons, unwords_cons w (by cases ws <;> simp [closeLast]),
        String.append_assoc, ih (by simp)]

theorem closeLast_spec {ws : List String} (hne : ws ≠ []) (h : ∀ w ∈ ws, Plain w) :
    ((closeLast ws).map chunkTokens).flatten = ws ++ [")"] ∧
    ∀ w ∈ closeLast ws, ' ' ∉ w.data := by
  induction ws with
  | nil => exact absurd rfl hne
  | cons w ws ih =>
    have hw := h w (by simp)
    cases ws with
    | nil =>
      refine ⟨by simp [closeLast, chunkTokens_close hw], ?_⟩
      intro x hx
      simp [closeLast] at hx
      subst hx
      simp only [String.data_append, List.mem_append, not_or]
      exact ⟨fun hc => (hw.2 _ hc).1 rfl, by decide⟩
    | cons w' ws =>
      have := ih (by simp) (fun x hx => h x (List.mem_cons_of_mem _ hx))
      have e : closeLast (w :: w' :: ws) = w :: closeLast (w' :: ws) := rfl
      rw [e]
      refine ⟨by simp [chunkTokens_plain hw, this.1], ?_⟩
      intro x hx
      rcases List.mem_cons.1 hx with rfl | hx
      · exact fun hc => (hw.2 _ hc).1 rfl
      · exact this.2 x hx

theorem tokens_of_chunks (ws : List String) (hsp : ∀ w ∈ ws, ' ' ∉ w.data)
    {f : String} (hf : f ∈ ws) (ho : ordinary f = true) :
    splitPrototypeIntoTokens (unwords ws) = (ws.map chunkTokens).flatten := by
  rw [splitPrototypeIntoTokens_eq_reference, tokenizeReference]
  have hne : ws ≠ [] := List.ne_nil_of_mem hf
  obtain ⟨h1, h2, -⟩ := (ordinary_iff f).1 ho
  obtain ⟨c, hc⟩ := List.exists_mem_of_ne_nil _ (data_ne_nil h1)
  have : (unwords ws).data.all IsSpace = false := by
    rw [List.all_eq_false]
    exact ⟨c, mem_data_unwords hf hc, by simp [(h2 c hc).1]⟩
  rw [this, Split_unwords ws hne hsp]
  simp

theorem chunkTokens_word {w : String} (h : Word w) : chunkTokens w = [w] := by
  rcases h with h | rfl | rfl
  · exact chunkTokens_plain h
  · rfl
  · rfl

theorem word_no_space {w : String} (h : Word w) : ' ' ∉ w.data := by
  rcases h with h | rfl | rfl
  · exact fun hc => (h.2 _ hc).1 rfl
  · decide
  · decide

theorem flatten_map_singleton (ws : List String) (h : ∀ w ∈ ws, chunkTokens w = [w]) :
    (ws.map chunkTokens).flatten = ws := by
  induction ws with
  | nil => rfl
  | cons w ws ih =>
    simp [h w (by simp), ih (fun x hx => h x (List.mem_cons_of_mem _ hx))]

/-- The tokens of a line of separate words are the words. -/
theorem tokens_unwords (ws : List String) (h : ∀ w ∈ ws, Word w)
    {f : String} (hf : f ∈ ws) (ho : ordinary f = true) :
    splitPrototypeIntoTokens (unwords ws) = ws := by
  rw [tokens_of_chunks ws (fun w hw => word_no_space (h w hw)) hf ho]
  exact flatten_map_singleton ws (fun w hw => chunkTokens_word (h w hw))

/-- The tokens of a line that ends in a group whose symbols are fused to its
first and last word. -/
theorem tokens_unwords_group (pre : List String) (u : String) (ows : List String)
    (h : ∀ w ∈ pre, Word w) {f : String} (hf : f ∈ pre) (ho : ordinary f = true)
    (hu : Plain u) (hne : ows ≠ []) (hows : ∀ w ∈ ows, Plain w) :
    splitPrototypeIntoTokens (unwords (pre ++ ["(" ++ unwords (u :: ows) ++ ")"])) =
      pre ++ "(" :: u :: ows ++ [")"] := by
  have e : "(" ++ unwords (u :: ows) ++ ")" = unwords (("(" ++ u) :: closeLast ows) := by
    rw [open_unwords, unwords_close (by simp)]
    cases ows with
    | nil => exact absurd rfl hne
    | cons w ws => rfl
  rw [e, unwords_append_unwords _ (by simp)]
  obtain ⟨h1, h2⟩ := closeLast_spec hne hows
  rw [tokens_of_chunks _ _ (List.mem_append_left _ hf) ho]
  · simp [flatten_map_singleton pre (fun w hw => chunkTokens_word (h w hw)), chunkTokens_open hu, h1]
  · intro w hw
    rcases List.mem_append.1 hw with hw | hw
    · exact word_no_space (h w hw)
    · rcases List.mem_cons.1 hw with rfl | hw
      · simp only [String.data_append, List.mem_append, not_or]
        exact ⟨by decide, fun hc => (hu.2 _ hc).1 rfl⟩
      · exact h2 w hw

/-! ## The loop seen from a position inside the token sequence -/

@[simp] theorem ok_bind {α β : Type} (a : α) (f : α → Outcome β) :
    (Outcome.ok a >>= f) = f a := rfl

@[simp] theorem error_bind {α β : Type} (e : ParseError) (f : α → Outcome β) :
    ((Outcome.error e : Outcome α) >>= f) = Outcome.error e := rfl

@[simp] theorem panic_bind {α β : Type} (p : Panic) (f : α → Outcome β) :
    ((Outcome.panic p : Outcome α) >>= f) = Outcome.panic p := rfl

@[simp] theorem pure_eq_ok {α : Type} (a : α) : (pure a : Outcome α) = Outcome.ok a := rfl

@[simp] theorem run_nil (pre : List String) (v : Locals) : run pre [] v = .ok v := rfl

theorem run_cons (pre : List String) (t : String) (rest : List String) (v : Locals) :
    run pre (t :: rest) v =
      (step (pre ++ t :: rest) pre.length t v >>= run (pre ++ [t]) rest) := by
  unfold run
  rw [parseLoop]
  cases h : step (pre ++ t :: rest) pre.length t v with
  | ok v' => simp [List.append_assoc]
  | error e => simp
  | panic p => simp

theorem parseTokens_eq_run (tokens : List String) :
    parseTokens tokens = (run [] tokens initialLocals >>= finish) := rfl

theorem lookAhead_at (pre : List String) (t : String) (rest : List String) :
    lookAhead (pre.length : Nat) (pre ++ t :: rest) = .ok (rest.head?.getD "") := by
  unfold lookAhead index
  cases rest with
  | nil => simp
  | cons r rs =>
    have h1 : ((pre.length : Nat) : Int) + 1 < ((pre ++ t :: r :: rs).length : Nat) := by
      simp
    have h2 : (0 : Int) ≤ (pre.length : Nat) + 1 := by omega
    have h3 : (((pre.length : Nat) : Int) + 1).toNat = pre.length + 1 := by omega
    rw [if_pos h1, if_pos ⟨h2, h1⟩, h3, List.getD_eq_getElem?_getD,
      List.getElem?_append_right (by omega)]
    simp

theorem lookBehind_at (pre : List String) (t : String) (rest : List String) :
    lookBehind (pre.length : Nat) (pre ++ t :: rest) = .ok (pre.getLastD "") := by
  unfold lookBehind index
  rcases List.eq_nil_or_concat pre with rfl | ⟨p, l, rfl⟩
  · simp
  · simp only [List.concat_eq_append]
    have h1 : (((p ++ [l]).length : Nat) : Int) - 1 ≥ 0 := by simp
    have h2 : (((p ++ [l]).length : Nat) : Int) - 1 < ((p ++ [l] ++ t :: rest).length : Nat) := by
      simp; omega
    have h3 : ((((p ++ [l]).length : Nat) : Int) - 1).toNat = p.length := by simp
    rw [if_pos h1, if_pos ⟨h1, h2⟩, h3, List.getD_eq_getElem?_getD, List.append_assoc,
      List.getElem?_append_right (by omega)]
    simp

theorem lookBehind_at_pred (pre : List String) (t : String) (rest : List String) :
    lookBehind ((pre.length : Nat) - 1) (pre ++ t :: rest) = .ok (pre.dropLast.getLastD "") := by
  unfold lookBehind index
  rcases List.eq_nil_or_concat pre with rfl | ⟨p, l, rfl⟩
  · simp
  · rcases List.eq_nil_or_concat p with rfl | ⟨q, m, rfl⟩
    · simp
    · simp only [List.concat_eq_append]
      have h1 : (((q ++ [m] ++ [l]).length : Nat) : Int) - 1 - 1 ≥ 0 := by simp; omega
      have h2 : (((q ++ [m] ++ [l]).length : Nat) : Int) - 1 - 1 <
          ((q ++ [m] ++ [l] ++ t :: rest).length : Nat) := by
        simp; omega
      have h3 : ((((q ++ [m] ++ [l]).length : Nat) : Int) - 1 - 1).toNat = q.length := by
        simp; omega
      rw [if_pos h1, if_pos ⟨h1, h2⟩, h3, List.getD_eq_getElem?_getD, List.append_assoc,
        List.append_assoc, List.getElem?_append_right (by omega)]
      simp

theorem last_position_iff (pre : List String) (t : String) (rest : List String) :
    ((pre.length : Nat) : Int) = ((pre ++ t :: rest).length : Nat) - 1 ↔ rest = [] := by
  cases rest with
  | nil => simp
  | cons r rs => simp; omega

/-! ## One iteration of the loop, branch by branch -/

theorem ordinary_ne_nil {t : String} (h : ordinary t = true) : t ≠ "" := ((ordinary_iff t).1 h).1

theorem ordinary_not_literal {t : String} (h : ordinary t = true) :
    t ≠ OPERATOR_TOKEN ∧ t ≠ INSTANCE_CONTEXT ∧ t ≠ FUNC_CONSTRUCTOR ∧
    t ≠ OPEN_OUTPUT_BLOCK ∧ t ≠ CLOSE_OUTPUT_BLOCK := by
  obtain ⟨-, h2, h3, h4, h5⟩ := (ordinary_iff t).1 h
  refine ⟨h3, h4, h5, ?_, ?_⟩
  · rintro rfl
    exact (h2 '(' (by decide)).2.2.1 rfl
  · rintro rfl
    exact (h2 ')' (by decide)).2.2.2 rfl

theorem ordinary_not_blank {t : String} (h : ordinary t = true) : TrimSpace t ≠ "" := by
  rw [Ne, TrimSpace_eq_empty_iff]
  obtain ⟨h1, h2, -⟩ := (ordinary_iff t).1 h
  obtain ⟨c, hc⟩ := List.exists_mem_of_ne_nil _ (data_ne_nil h1)
  intro hall
  have := List.all_eq_true.1 hall c hc
  rw [(h2 c hc).1] at this
  cases this

theorem containsForbiddenCharacter_ordinary {t : String} (h : ordinary t = true) :
    containsForbiddenCharacter t = none := by
  obtain ⟨-, h2, -⟩ := (ordinary_iff t).1 h
  have a : ContainsRune t ',' = false := by
    simp only [ContainsRune, List.contains_eq_any_beq, List.any_eq_false]
    intro c hc
    simpa using Ne.symm (h2 c hc).2.1
  have b : ContainsRune t '(' = false := by
    simp only [ContainsRune, List.contains_eq_any_beq, List.any_eq_false]
    intro c hc
    simpa using Ne.symm (h2 c hc).2.2.1
  have c : ContainsRune t ')' = false := by
    simp only [ContainsRune, List.contains_eq_any_beq, List.any_eq_false]
    intro c hc
    simpa using Ne.symm (h2 c hc).2.2.2
  simp [containsForbiddenCharacter, a, b, c]

theorem forcedState_ordinary {t : String} (h : ordinary t = true) (s : State) :
    forcedState t s = s := by
  obtain ⟨h1, h2, h3, -, h5⟩ := ordinary_not_literal h
  simp [forcedState, h1, h2, h3, h5]

theorem step_ordinary {t : String} (h : ordinary t = true) (tokens : List String) (pos : Int)
    (v : Locals) : step tokens pos t v = stateCase tokens pos t v := by
  simp [step, containsForbiddenCharacter_ordinary h, (ordinary_not_literal h).2.2.2.1,
    forcedState_ordinary h]

/-- An identifier read in `FUNC_NAME_STATE` becomes the name. -/
theorem step_funcName {t : String} (h : ordinary t = true) (tokens : List String) (pos : Int)
    (recv : Option FieldList) (name : Option String) (typ : Option FuncType) (buf : FieldList)
    (blk : Bool) (prev : String) :
    step tokens pos t ⟨⟨recv, name, typ⟩, buf, blk, prev, .FUNC_NAME_STATE⟩ =
      .ok ⟨⟨recv, some t, typ⟩, buf, blk, prev, .OPERATOR_TOKEN_STATE⟩ := by
  rw [step_ordinary h, stateCase]

/-- The token `::` followed by something starts the type description. -/
theorem step_operator (pre rest : List String) (hn : rest.head?.getD "" ≠ "")
    (recv : Option FieldList) (name : Option String) (typ : Option FuncType) (buf : FieldList)
    (blk : Bool) (prev : String) (st : State) :
    step (pre ++ OPERATOR_TOKEN :: rest) pre.length OPERATOR_TOKEN
        ⟨⟨recv, name, typ⟩, buf, blk, prev, st⟩ =
      .ok ⟨⟨recv, name, some ⟨none⟩⟩, buf, blk, prev, .ARG_TYPE_STATE⟩ := by
  have hc : containsForbiddenCharacter OPERATOR_TOKEN = none := by decide
  have ho : OPERATOR_TOKEN ≠ OPEN_OUTPUT_BLOCK := by decide
  simp [step, hc, ho, forcedState, stateCase, lookAhead_at, hn]

/-- In `ARG_TYPE_STATE` an identifier followed by another word is a type. -/
theorem step_type {t : String} (h : ordinary t = true) (pre rest : List String)
    (h1 : TrimSpace (rest.head?.getD "") ≠ "") (h2 : rest.head?.getD "" ≠ FUNC_CONSTRUCTOR)
    (h3 : rest.head?.getD "" ≠ CLOSE_OUTPUT_BLOCK)
    (fd : FuncDecl) (buf : List Field) (blk : Bool) (prev : String) :
    step (pre ++ t :: rest) pre.length t ⟨fd, ⟨buf⟩, blk, prev, .ARG_TYPE_STATE⟩ =
      .ok ⟨fd, ⟨buf ++ [⟨[], some t⟩]⟩, blk, t, .ARG_NAME_STATE⟩ := by
  rw [step_ordinary h, stateCase]
  simp [argTypeCase, lookAhead_at, h1, h2, h3]

/-- In `ARG_TYPE_STATE` an identifier at the end of an argument is a name whose
type is the recorded one, once the duplicate check has run. -/
theorem step_infer {t : String} (h : ordinary t = true) (pre rest : List String)
    (hn : TrimSpace (rest.head?.getD "") = "" ∨ rest.head?.getD "" = FUNC_CONSTRUCTOR ∨
      rest.head?.getD "" = CLOSE_OUTPUT_BLOCK)
    (fd : FuncDecl) (buf : List Field) (blk : Bool) (prev : String) (hp : prev ≠ "") :
    step (pre ++ t :: rest) pre.length t ⟨fd, ⟨buf⟩, blk, prev, .ARG_TYPE_STATE⟩ =
      (duplicateCheck ⟨fd, ⟨buf⟩, blk, prev, .ARG_TYPE_STATE⟩ t >>= fun dup =>
        if dup then .error (.duplicateArgumentName t)
        else .ok ⟨fd, ⟨buf ++ [⟨[t], some prev⟩]⟩, blk, prev, .ARG_TYPE_STATE⟩) := by
  rw [step_ordinary h, stateCase]
  simp only [argTypeCase, lookAhead_at, lookBehind_at, lookBehind_at_pred, ok_bind, hn, if_true,
    hp, and_false, if_false, ite_self, pure_eq_ok]

/-- Inference outside a block: the name must not be among the committed inputs. -/
theorem step_infer_input {t : String} (h : ordinary t = true) (pre rest : List String)
    (hn : TrimSpace (rest.head?.getD "") = "" ∨ rest.head?.getD "" = FUNC_CONSTRUCTOR ∨
      rest.head?.getD "" = CLOSE_OUTPUT_BLOCK)
    (recv : Option FieldList) (name : Option String) (tp : Option FieldList) (buf : List Field)
    (prev : String) (hp : prev ≠ "") (hd : hasName (fieldsOf tp) t = false) :
    step (pre ++ t :: rest) pre.length t
        ⟨⟨recv, name, some ⟨tp⟩⟩, ⟨buf⟩, false, prev, .ARG_TYPE_STATE⟩ =
      .ok ⟨⟨recv, name, some ⟨tp⟩⟩, ⟨buf ++ [⟨[t], some prev⟩]⟩, false, prev, .ARG_TYPE_STATE⟩ := by
  rw [step_infer h pre rest hn _ _ _ _ hp]
  cases tp with
  | none => simp [duplicateCheck]
  | some fl => simp [duplicateCheck, fieldsOf] at hd ⊢; simp [hd]

/-- Inference outside a block: a name among the committed inputs is an error. -/
theorem step_infer_duplicate {t : String} (h : ordinary t = true) (pre rest : List String)
    (hn : TrimSpace (rest.head?.getD "") = "" ∨ rest.head?.getD "" = FUNC_CONSTRUCTOR ∨
      rest.head?.getD "" = CLOSE_OUTPUT_BLOCK)
    (recv : Option FieldList) (name : Option String) (tp : Option FieldList) (buf : List Field)
    (prev : String) (hp : prev ≠ "") (hd : hasName (fieldsOf tp) t = true) :
    step (pre ++ t :: rest) pre.length t
        ⟨⟨recv, name, some ⟨tp⟩⟩, ⟨buf⟩, false, prev, .ARG_TYPE_STATE⟩ =
      .error (.duplicateArgumentName t) := by
  rw [step_infer h pre rest hn _ _ _ _ hp]
  cases tp with
  | none => simp [fieldsOf, hasName] at hd
  | some fl => simp [duplicateCheck, fieldsOf] at hd ⊢; simp [hd]

/-- Inference inside a block while `Recv` is nil: no name is a duplicate. -/
theorem step_infer_block {t : String} (h : ordinary t = true) (pre rest : List String)
    (hn : TrimSpace (rest.head?.getD "") = "" ∨ rest.head?.getD "" = FUNC_CONSTRUCTOR ∨
      rest.head?.getD "" = CLOSE_OUTPUT_BLOCK)
    (name : Option String) (typ : Option FuncType) (buf : List Field)
    (prev : String) (hp : prev ≠ "") :
    step (pre ++ t :: rest) pre.length t
        ⟨⟨none, name, typ⟩, ⟨buf⟩, true, prev, .ARG_TYPE_STATE⟩ =
      .ok ⟨⟨none, name, typ⟩, ⟨buf ++ [⟨[t], some prev⟩]⟩, true, prev, .ARG_TYPE_STATE⟩ := by
  rw [step_infer h pre rest hn _ _ _ _ hp]
  simp [duplicateCheck]

theorem appendNameToLast_concat (init : List Field) (f : Field) (t : String) :
    appendNameToLast (init ++ [f]) t = .ok (init ++ [{ f with Names := f.Names ++ [t] }]) := by
  induction init with
  | nil => rfl
  | cons g gs ih =>
    cases gs with
    | nil => rfl
    | cons g' gs =>
      have e : appendNameToLast ((g :: g' :: gs) ++ [f]) t =
          (appendNameToLast ((g' :: gs) ++ [f]) t).bind fun r => .ok (g :: r) := rfl
      rw [e, ih]
      rfl

/-- In `ARG_NAME_STATE` an identifier not yet in the buffer names the last field. -/
theorem step_argName {t : String} (h : ordinary t = true) (tokens : List String) (pos : Int)
    (fd : FuncDecl) (init : List Field) (ns : List String) (ty : Option String) (blk : Bool)
    (prev : String) (hd : hasName (init ++ [⟨ns, ty⟩]) t = false) :
    step tokens pos t ⟨fd, ⟨init ++ [⟨ns, ty⟩]⟩, blk, prev, .ARG_NAME_STATE⟩ =
      .ok ⟨fd, ⟨init ++ [⟨ns ++ [t], ty⟩]⟩, blk, prev, .ARG_NAME_STATE⟩ := by
  rw [step_ordinary h, stateCase]
  simp [hd, appendNameToLast_concat]

/-- Outside an output block `->` moves the buffer to the input parameters. -/
theorem step_arrow_flush (pre rest : List String) (hn : rest.head?.getD "" ≠ "")
    (recv : Option FieldList) (name : Option String) (tp : Option FieldList) (buf : List Field)
    (prev : String) (st : State) :
    step (pre ++ FUNC_CONSTRUCTOR :: rest) pre.length FUNC_CONSTRUCTOR
        ⟨⟨recv, name, some ⟨tp⟩⟩, ⟨buf⟩, false, prev, st⟩ =
      .ok ⟨⟨recv, name, some ⟨some ⟨fieldsOf tp ++ buf⟩⟩⟩, ⟨[]⟩, false, prev, .ARG_TYPE_STATE⟩ := by
  have hc : containsForbiddenCharacter FUNC_CONSTRUCTOR = none := by decide
  have ho : FUNC_CONSTRUCTOR ≠ OPEN_OUTPUT_BLOCK := by decide
  have h1 : FUNC_CONSTRUCTOR ≠ OPERATOR_TOKEN := by decide
  have h2 : FUNC_CONSTRUCTOR ≠ INSTANCE_CONTEXT := by decide
  simp only [step, hc, ho, if_false, forcedState, h1, h2, if_true, stateCase, lookAhead_at,
    ok_bind, hn, pure_eq_ok]
  cases tp <;> simp [fieldsOf]

/-- Inside an output block `->` only moves the state machine to `ARG_TYPE_STATE`. -/
theorem step_arrow_block (pre rest : List String) (hn : rest.head?.getD "" ≠ "")
    (fd : FuncDecl) (buf : FieldList) (prev : String) (st : State) :
    step (pre ++ FUNC_CONSTRUCTOR :: rest) pre.length FUNC_CONSTRUCTOR
        ⟨fd, buf, true, prev, st⟩ = .ok ⟨fd, buf, true, prev, .ARG_TYPE_STATE⟩ := by
  have hc : containsForbiddenCharacter FUNC_CONSTRUCTOR = none := by decide
  have ho : FUNC_CONSTRUCTOR ≠ OPEN_OUTPUT_BLOCK := by decide
  have h1 : FUNC_CONSTRUCTOR ≠ OPERATOR_TOKEN := by decide
  have h2 : FUNC_CONSTRUCTOR ≠ INSTANCE_CONTEXT := by decide
  simp [step, hc, ho, forcedState, h1, h2, stateCase, lookAhead_at, hn]

/-- The token `(` only sets the flag. -/
theorem step_open (tokens : List String) (pos : Int) (fd : FuncDecl) (buf : FieldList)
    (blk : Bool) (prev : String) (st : State) :
    step tokens pos OPEN_OUTPUT_BLOCK ⟨fd, buf, blk, prev, st⟩ =
      .ok ⟨fd, buf, true, prev, st⟩ := by
  have hc : containsForbiddenCharacter OPEN_OUTPUT_BLOCK = none := by decide
  simp [step, hc]

/-- The token `)` at the end of an open block moves the buffer to `Recv`. -/
theorem step_close (pre : List String) (recv : Option FieldList) (name : Option String)
    (typ : Option FuncType) (buf : FieldList) (prev : String) (st : State) :
    step (pre ++ [CLOSE_OUTPUT_BLOCK]) pre.length CLOSE_OUTPUT_BLOCK
        ⟨⟨recv, name, typ⟩, buf, true, prev, st⟩ =
      .ok ⟨⟨some buf, name, typ⟩, ⟨[]⟩, true, prev, .CLOSE_OUTPUT_BLOCK_STATE⟩ := by
  have hc : containsForbiddenCharacter CLOSE_OUTPUT_BLOCK = none := by decide
  have ho : CLOSE_OUTPUT_BLOCK ≠ OPEN_OUTPUT_BLOCK := by decide
  have h1 : CLOSE_OUTPUT_BLOCK ≠ OPERATOR_TOKEN := by decide
  have h2 : CLOSE_OUTPUT_BLOCK ≠ INSTANCE_CONTEXT := by decide
  have h3 : CLOSE_OUTPUT_BLOCK ≠ FUNC_CONSTRUCTOR := by decide
  have hl := (last_position_iff pre CLOSE_OUTPUT_BLOCK []).2 rfl
  simp only [step, hc, ho, if_false, forcedState, h1, h2, h3, if_true, stateCase]
  rw [if_neg (by simp), if_neg (not_not.2 hl)]

/-! ## Fully typed signatures (C2) -/

theorem head_typedInputs_append (params : List (String × String)) (tail : List String)
    (hp : ∀ p ∈ params, ordinary p.1 = true ∧ ordinary p.2 = true)
    (ht : ordinary (tail.head?.getD "") = true) :
    ordinary ((typedInputs params ++ tail).head?.getD "") = true := by
  cases params with
  | nil => simpa [typedInputs] using ht
  | cons p ps => simpa [typedInputs] using (hp p (by simp)).1

theorem run_start {f : String} (hf : ordinary f = true) (rest : List String)
    (hn : rest.head?.getD "" ≠ "") :
    run [] (f :: OPERATOR_TOKEN :: rest) initialLocals =
      run [f, OPERATOR_TOKEN] rest
        ⟨⟨none, some f, some ⟨none⟩⟩, ⟨[]⟩, false, "", .ARG_TYPE_STATE⟩ := by
  rw [run_cons, initialLocals, List.length_nil, step_funcName hf, ok_bind]
  exact (run_cons [f] _ _ _).trans (by rw [step_operator _ _ hn]; rfl)

/-- A typed parameter `T a` read from `ARG_TYPE_STATE`. -/
theorem run_typed {T a : String} (hT : ordinary T = true) (ha : ordinary a = true)
    (pre rest : List String) (fd : FuncDecl) (buf : List Field) (blk : Bool) (prev : String)
    (hd : hasName buf a = false) :
    run pre (T :: a :: rest) ⟨fd, ⟨buf⟩, blk, prev, .ARG_TYPE_STATE⟩ =
      run (pre ++ [T, a]) rest ⟨fd, ⟨buf ++ [param a T]⟩, blk, T, .ARG_NAME_STATE⟩ := by
  have hd' : hasName (buf ++ [⟨[], some T⟩]) a = false := by
    simpa [hasName] using hd
  rw [run_cons, step_type hT _ _ (by simpa using ordinary_not_blank ha)
      (by simpa using (ordinary_not_literal ha).2.2.1)
      (by simpa using (ordinary_not_literal ha).2.2.2.2), ok_bind, run_cons,
    step_argName ha _ _ _ _ _ _ _ _ hd', ok_bind]
  simp [param]

theorem run_typedInputs (params : List (String × String))
    (hp : ∀ p ∈ params, ordinary p.1 = true ∧ ordinary p.2 = true) (tail : List String)
    (ht : ordinary (tail.head?.getD "") = true) (pre : List String)
    (name : Option String) (tp : Option FieldList) (prev : String) :
    ∃ tp' prev',
      run pre (typedInputs params ++ tail)
          ⟨⟨none, name, some ⟨tp⟩⟩, ⟨[]⟩, false, prev, .ARG_TYPE_STATE⟩ =
        run (pre ++ typedInputs params) tail
          ⟨⟨none, name, some ⟨tp'⟩⟩, ⟨[]⟩, false, prev', .ARG_TYPE_STATE⟩ ∧
      fieldsOf tp' = fieldsOf tp ++ params.map fun p => param p.2 p.1 := by
  induction params generalizing pre tp prev with
  | nil => exact ⟨tp, prev, by simp [typedInputs], by simp⟩
  | cons p ps ih =>
    obtain ⟨hT, ha⟩ := hp p (by simp)
    have hps : ∀ q ∈ ps, ordinary q.1 = true ∧ ordinary q.2 = true :=
      fun q hq => hp q (List.mem_cons_of_mem _ hq)
    have hnext := head_typedInputs_append ps tail hps ht
    have e : typedInputs (p :: ps) ++ tail =
        p.1 :: p.2 :: FUNC_CONSTRUCTOR :: (typedInputs ps ++ tail) := by
      simp [typedInputs]
    have e' : pre ++ typedInputs (p :: ps) =
        pre ++ [p.1, p.2] ++ [FUNC_CONSTRUCTOR] ++ typedInputs ps := by
      simp [typedInputs]
    obtain ⟨tp', prev', hrun, hf⟩ := ih hps (pre ++ [p.1, p.2] ++ [FUNC_CONSTRUCTOR])
      (some ⟨fieldsOf tp ++ ([] ++ [param p.2 p.1])⟩) p.1
    refine ⟨tp', prev', ?_, by simpa [fieldsOf] using hf⟩
    rw [e, e', run_typed hT ha _ _ _ _ _ _ (by simp [hasName]), run_cons,
      step_arrow_flush _ _ (ordinary_ne_nil hnext), ok_bind]
    exact hrun

theorem finish_single (recv : Option FieldList) (name : Option String) (typ : Option FuncType)
    (a T : String) (blk : Bool) (prev : String) (st : State) :
    finish ⟨⟨recv, name, typ⟩, ⟨[param a T]⟩, blk, prev, st⟩ =
      .ok ⟨some ⟨[param a T]⟩, name, typ⟩ := by
  simp [finish, param]

theorem word_of_ordinary {w : String} (h : ordinary w = true) : Word w :=
  Or.inl (plain_of_ordinary h)

theorem plain_operator : Plain OPERATOR_TOKEN := ⟨by decide, by decide⟩

theorem plain_arrow : Plain FUNC_CONSTRUCTOR := ⟨by decide, by decide⟩

theorem plain_typedInputs (params : List (String × String))
    (hp : ∀ p ∈ params, ordinary p.1 = true ∧ ordinary p.2 = true) :
    ∀ w ∈ typedInputs params, Plain w := by
  intro w hw
  simp only [typedInputs, List.mem_flatten, List.mem_map] at hw
  obtain ⟨l, ⟨p, hpm, rfl⟩, hw⟩ := hw
  simp only [List.mem_cons, List.mem_singleton, List.not_mem_nil, or_false] at hw
  rcases hw with rfl | rfl | rfl
  · exact plain_of_ordinary (hp p hpm).1
  · exact plain_of_ordinary (hp p hpm).2
  · exact plain_arrow

/-- C2: for ordinary identifiers `f`, `T1..Tn`, `a1..an` (`n ≥ 0`, the `ai`
pairwise distinct), `U` and `b`, `Parse "f :: T1 a1 -> ... -> Tn an -> U b"`
succeeds with name `f`, inputs exactly `[{a1:T1}, ..., {an:Tn}]` in textual
order and outputs exactly `[{b:U}]`. -/
theorem C2_fully_typed_signature (f U b : String) (params : List (String × String))
    (hf : ordinary f = true)
    (hp : ∀ p ∈ params, ordinary p.1 = true ∧ ordinary p.2 = true)
    (_hdistinct : (params.map Prod.snd).Nodup)
    (hU : ordinary U = true) (hb : ordinary b = true) :
    ∃ d, Parse (unwords ([f, "::"] ++ typedInputs params ++ [U, b])) = .ok d ∧
      d.Name = some f ∧ d.inputs = params.map (fun p => param p.2 p.1) ∧
      d.outputs = [param b U] := by
  have hw : ∀ w ∈ [f, "::"] ++ typedInputs params ++ [U, b], Word w := by
    intro w hw
    simp only [List.mem_append, List.mem_cons, List.mem_singleton, List.not_mem_nil,
      or_false] at hw
    rcases hw with (((rfl | rfl) | h) | (rfl | rfl))
    · exact word_of_ordinary hf
    · exact Or.inl plain_operator
    · exact Or.inl (plain_typedInputs params hp w h)
    · exact word_of_ordinary hU
    · exact word_of_ordinary hb
  have htail : ordinary (([U, b] : List String).head?.getD "") = true := by simpa using hU
  obtain ⟨tp', prev', hrun, hfields⟩ :=
    run_typedInputs params hp [U, b] htail [f, OPERATOR_TOKEN] (some f) none ""
  refine ⟨⟨some ⟨[param b U]⟩, some f, some ⟨tp'⟩⟩, ?_, rfl, ?_, rfl⟩
  · rw [Parse, tokens_unwords _ hw (List.mem_append_left _ (List.mem_append_left _
        (List.mem_cons_self f _))) hf, parseTokens_eq_run]
    have e : [f, "::"] ++ typedInputs params ++ [U, b] =
        f :: OPERATOR_TOKEN :: (typedInputs params ++ [U, b]) := by
      simp [OPERATOR_TOKEN]
    rw [e, run_start hf _ (ordinary_ne_nil (head_typedInputs_append params _ hp htail)), hrun,
      run_typed hU hb _ _ _ _ _ _ (by simp [hasName]), run_nil, ok_bind]
    exact finish_single _ _ _ _ _ _ _ _
  · simpa [FuncDecl.inputs, fieldsOf] using hfields

/-- Witness of C2 at `TestFunc :: Int a -> Bool z -> String b`. -/
theorem C2_witness :
    (ordinary "TestFunc" = true ∧
      (∀ p ∈ [("Int", "a"), ("Bool", "z")], ordinary p.1 = true ∧ ordinary p.2 = true) ∧
      ([("Int", "a"), ("Bool", "z")].map Prod.snd).Nodup ∧
      ordinary "String" = true ∧ ordinary "b" = true) ∧
    ∃ d, Parse "TestFunc :: Int a -> Bool z -> String b" = .ok d ∧
      d.Name = some "TestFunc" ∧ d.inputs = [param "a" "Int", param "z" "Bool"] ∧
      d.outputs = [param "b" "String"] :=
  ⟨by decide, C2_fully_typed_signature "TestFunc" "String" "b" [("Int", "a"), ("Bool", "z")]
    (by decide) (by decide) (by decide) (by decide) (by decide)⟩

/-! ## Type inference chains (C3) and duplicate names (C6) -/

theorem hasName_iff (fields : List Field) (t : String) :
    hasName fields t = true ↔ t ∈ names fields := by
  simp only [hasName, names, List.any_eq_true, List.mem_flatten, List.mem_map, beq_iff_eq]
  constructor
  · rintro ⟨p, hp, n, hn, rfl⟩
    exact ⟨p.Names, ⟨p, hp, rfl⟩, hn⟩
  · rintro ⟨l, ⟨p, hp, rfl⟩, hn⟩
    exact ⟨p, hp, t, hn, rfl⟩

theorem hasName_eq_false_iff (fields : List Field) (t : String) :
    hasName fields t = false ↔ t ∉ names fields := by
  rw [← hasName_iff]; simp

theorem names_append (l₁ l₂ : List Field) : names (l₁ ++ l₂) = names l₁ ++ names l₂ := by
  simp [names]

theorem names_map_param (ns : List String) (T : String) :
    names (ns.map fun n => param n T) = ns := by
  induction ns with
  | nil => rfl
  | cons n ns ih =>
    simp only [names, List.map_cons, List.flatten_cons] at ih ⊢
    rw [ih]; rfl

theorem inferred_next_ok (ns tail : List String)
    (ht : TrimSpace (tail.head?.getD "") = "" ∨ tail.head?.getD "" = FUNC_CONSTRUCTOR ∨
      tail.head?.getD "" = CLOSE_OUTPUT_BLOCK) :
    TrimSpace ((inferredParams ns ++ tail).head?.getD "") = "" ∨
      (inferredParams ns ++ tail).head?.getD "" = FUNC_CONSTRUCTOR ∨
      (inferredParams ns ++ tail).head?.getD "" = CLOSE_OUTPUT_BLOCK := by
  cases ns with
  | nil => simpa [inferredParams] using ht
  | cons n ns => right; left; simp [inferredParams]

theorem run_inferredParams (ns : List String) (hns : ∀ n ∈ ns, ordinary n = true)
    (hnd : ns.Nodup) {T : String} (hT : T ≠ "") (tail : List String)
    (ht : TrimSpace (tail.head?.getD "") = "" ∨ tail.head?.getD "" = FUNC_CONSTRUCTOR ∨
      tail.head?.getD "" = CLOSE_OUTPUT_BLOCK)
    (pre : List String) (name : Option String) (tp : Option FieldList) (buf : List Field)
    (st : State) (hbuf : buf.length = 1) (hfresh : ∀ n ∈ ns, n ∉ names (fieldsOf tp ++ buf)) :
    ∃ tp' buf' st',
      run pre (inferredParams ns ++ tail) ⟨⟨none, name, some ⟨tp⟩⟩, ⟨buf⟩, false, T, st⟩ =
        run (pre ++ inferredParams ns) tail
          ⟨⟨none, name, some ⟨tp'⟩⟩, ⟨buf'⟩, false, T, st'⟩ ∧
      fieldsOf tp' ++ buf' = fieldsOf tp ++ buf ++ ns.map (fun n => param n T) ∧
      buf'.length = 1 := by
  induction ns generalizing pre tp buf st with
  | nil => exact ⟨tp, buf, st, by simp [inferredParams], by simp, hbuf⟩
  | cons n ns ih =>
    have hn := hns n (by simp)
    have hns' : ∀ m ∈ ns, ordinary m = true := fun m hm => hns m (List.mem_cons_of_mem _ hm)
    obtain ⟨hnotin, hnd'⟩ := List.nodup_cons.1 hnd
    have e : inferredParams (n :: ns) ++ tail =
        FUNC_CONSTRUCTOR :: n :: (inferredParams ns ++ tail) := by
      simp [inferredParams]
    have e' : pre ++ inferredParams (n :: ns) =
        pre ++ [FUNC_CONSTRUCTOR] ++ [n] ++ inferredParams ns := by
      simp [inferredParams]
    have hfresh' : ∀ m ∈ ns,
        m ∉ names (fieldsOf (some ⟨fieldsOf tp ++ buf⟩) ++ ([] ++ [⟨[n], some T⟩])) := by
      intro m hm
      have h1 := hfresh m (List.mem_cons_of_mem _ hm)
      have h2 : m ≠ n := fun h => hnotin (h ▸ hm)
      simp only [names_append, fieldsOf, List.nil_append, List.mem_append, not_or] at h1 ⊢
      exact ⟨⟨h1.1, h1.2⟩, by simpa [names] using h2⟩
    obtain ⟨tp', buf', st', hrun, hfields, hlen⟩ :=
      ih hns' hnd' (pre ++ [FUNC_CONSTRUCTOR] ++ [n]) (some ⟨fieldsOf tp ++ buf⟩)
        ([] ++ [⟨[n], some T⟩]) .ARG_TYPE_STATE (by simp) hfresh'
    have hd : hasName (fieldsOf (some ⟨fieldsOf tp ++ buf⟩)) n = false :=
      (hasName_eq_false_iff _ _).2 (hfresh n (by simp))
    refine ⟨tp', buf', st', ?_, ?_, hlen⟩
    · rw [e, e', run_cons, step_arrow_flush _ _ (by simpa using ordinary_ne_nil hn), ok_bind,
        run_cons, step_infer_input hn _ _ (inferred_next_ok ns tail ht) _ _ _ _ _ hT hd, ok_bind]
      exact hrun
    · rw [hfields]
      simp [fieldsOf, param]

theorem plain_inferredParams (ns : List String) (hns : ∀ n ∈ ns, ordinary n = true) :
    ∀ w ∈ inferredParams ns, Plain w := by
  intro w hw
  simp only [inferredParams, List.mem_flatten, List.mem_map] at hw
  obtain ⟨l, ⟨n, hn, rfl⟩, hw⟩ := hw
  simp only [List.mem_cons, List.mem_singleton, List.not_mem_nil, or_false] at hw
  rcases hw with rfl | rfl
  · exact plain_arrow
  · exact plain_of_ordinary (hns _ hn)

/-- The tokens of `f :: T a -> n1 -> ... -> nk`. -/
theorem tokens_inferred {f T a : String} (hf : ordinary f = true) (hT : ordinary T = true)
    (ha : ordinary a = true) (ns : List String) (hns : ∀ n ∈ ns, ordinary n = true) :
    splitPrototypeIntoTokens (unwords ([f, "::", T, a] ++ inferredParams ns)) =
      f :: OPERATOR_TOKEN :: T :: a :: inferredParams ns := by
  have hw : ∀ w ∈ [f, "::", T, a] ++ inferredParams ns, Word w := by
    intro w hw
    simp only [List.mem_append, List.mem_cons, List.mem_singleton, List.not_mem_nil,
      or_false] at hw
    rcases hw with ((rfl | rfl | rfl | rfl) | h)
    · exact word_of_ordinary hf
    · exact Or.inl plain_operator
    · exact word_of_ordinary hT
    · exact word_of_ordinary ha
    · exact Or.inl (plain_inferredParams ns hns w h)
  rw [tokens_unwords _ hw (List.mem_append_left _ (List.mem_cons_self f _)) hf]
  rfl

/-- The loop after `f :: T a`. -/
theorem run_first_input {f T a : String} (hf : ordinary f = true) (hT : ordinary T = true)
    (ha : ordinary a = true) (rest : List String) :
    run [] (f :: OPERATOR_TOKEN :: T :: a :: rest) initialLocals =
      run ([f, OPERATOR_TOKEN] ++ [T, a]) rest
        ⟨⟨none, some f, some ⟨none⟩⟩, ⟨[] ++ [param a T]⟩, false, T, .ARG_NAME_STATE⟩ := by
  rw [run_start hf _ (by simpa using ordinary_ne_nil hT),
    run_typed hT ha _ _ _ _ _ _ (by simp [hasName])]

/-- C3: for ordinary identifiers `f`, `T`, `a` and names `n1..nk` (`k ≥ 1`,
written `ns ++ [last]`) such that `a, n1, ..., nk` are pairwise distinct,
`Parse "f :: T a -> n1 -> ... -> nk"` succeeds with inputs
`[{a:T}, {n1:T}, ..., {n(k-1):T}]` and outputs `[{nk:T}]`: every parameter
whose type is elided receives the most recently stated type. -/
theorem C3_type_inference_chain (f T a last : String) (ns : List String)
    (hf : ordinary f = true) (hT : ordinary T = true) (ha : ordinary a = true)
    (hns : ∀ n ∈ ns ++ [last], ordinary n = true) (hnd : (a :: (ns ++ [last])).Nodup) :
    ∃ d, Parse (unwords ([f, "::", T, a] ++ inferredParams (ns ++ [last]))) = .ok d ∧
      d.inputs = param a T :: ns.map (fun n => param n T) ∧ d.outputs = [param last T] := by
  obtain ⟨hnotin, hnd'⟩ := List.nodup_cons.1 hnd
  have hfresh : ∀ n ∈ ns ++ [last], n ∉ names (fieldsOf none ++ ([] ++ [param a T])) := by
    intro n hn h
    have : n = a := by simpa [names, fieldsOf, param] using h
    exact hnotin (this ▸ hn)
  obtain ⟨tp', buf', st', hrun, hfields, hlen⟩ :=
    run_inferredParams (ns ++ [last]) hns hnd' (ordinary_ne_nil hT) [] (by simp; decide)
      ([f, OPERATOR_TOKEN] ++ [T, a]) (some f) none ([] ++ [param a T]) .ARG_NAME_STATE
      (by simp) hfresh
  have hsplit : fieldsOf tp' ++ buf' = (param a T :: ns.map (fun n => param n T)) ++
      [param last T] := by
    rw [hfields]; simp [fieldsOf]
  obtain ⟨h1, h2⟩ := List.append_inj' hsplit (by simpa using hlen)
  refine ⟨⟨some ⟨[param last T]⟩, some f, some ⟨tp'⟩⟩, ?_, ?_, rfl⟩
  · rw [Parse, tokens_inferred hf hT ha _ hns, parseTokens_eq_run, run_first_input hf hT ha]
    have := hrun
    rw [List.append_nil] at this
    rw [this, run_nil, ok_bind, h2]
    exact finish_single _ _ _ _ _ _ _ _
  · simpa [FuncDecl.inputs, fieldsOf] using h1

/-- Witness of C3 at `TestFunc :: Int a -> z -> b`. -/
theorem C3_witness :
    (ordinary "TestFunc" = true ∧ ordinary "Int" = true ∧ ordinary "a" = true ∧
      (∀ n ∈ ["z"] ++ ["b"], ordinary n = true) ∧ ("a" :: (["z"] ++ ["b"])).Nodup) ∧
    ∃ d, Parse "TestFunc :: Int a -> z -> b" = .ok d ∧
      d.inputs = [param "a" "Int", param "z" "Int"] ∧ d.outputs = [param "b" "Int"] :=
  ⟨by decide, C3_type_inference_chain "TestFunc" "Int" "a" "b" ["z"]
    (by decide) (by decide) (by decide) (by decide) (by decide)⟩

theorem exists_first_duplicate {l : List String} (h : ¬ l.Nodup) :
    ∃ g n b, l = g ++ n :: b ∧ g.Nodup ∧ n ∈ g := by
  induction l using List.reverseRecOn with
  | nil => exact absurd List.nodup_nil h
  | append_singleton l x ih =>
    by_cases hl : l.Nodup
    · refine ⟨l, x, [], rfl, hl, ?_⟩
      by_contra hx
      apply h
      rw [List.nodup_append]
      exact ⟨hl, List.nodup_singleton x, by
        intro y hy hy'
        rw [List.mem_singleton] at hy'
        exact hx (hy' ▸ hy)⟩
    · obtain ⟨g, n, b, rfl, hg, hn⟩ := ih hl
      exact ⟨g, n, b ++ [x], by simp, hg, hn⟩

theorem duplicate_rejected (f T a : String) (hf : ordinary f = true) (hT : ordinary T = true)
    (ha : ordinary a = true) (ns : List String) (hns : ∀ n ∈ ns, ordinary n = true)
    (hdup : ¬ (a :: ns).Nodup) :
    ∃ e, Parse (unwords ([f, "::", T, a] ++ inferredParams ns)) = .error e := by
  obtain ⟨g, n, b, hl, hg, hn⟩ := exists_first_duplicate hdup
  cases g with
  | nil => cases hn
  | cons a' g =>
    simp only [List.cons_append, List.cons.injEq] at hl
    obtain ⟨rfl, rfl⟩ := hl
    obtain ⟨hnotin, hg'⟩ := List.nodup_cons.1 hg
    have hog : ∀ m ∈ g, ordinary m = true := fun m hm => hns m (by simp [hm])
    have hon : ordinary n = true := hns n (by simp)
    have hfresh : ∀ m ∈ g, m ∉ names (fieldsOf none ++ ([] ++ [param a T])) := by
      intro m hm h
      have : m = a := by simpa [names, fieldsOf, param] using h
      exact hnotin (this ▸ hm)
    have e : inferredParams (g ++ n :: b) =
        inferredParams g ++ FUNC_CONSTRUCTOR :: n :: inferredParams b := by
      simp [inferredParams]
    obtain ⟨tp', buf', st', hrun, hfields, -⟩ :=
      run_inferredParams g hog hg' (ordinary_ne_nil hT)
        (FUNC_CONSTRUCTOR :: n :: inferredParams b) (by simp)
        ([f, OPERATOR_TOKEN] ++ [T, a]) (some f) none ([] ++ [param a T]) .ARG_NAME_STATE
        (by simp) hfresh
    have hd : hasName (fieldsOf (some ⟨fieldsOf tp' ++ buf'⟩)) n = true := by
      rw [hasName_iff]
      have : fieldsOf (some ⟨fieldsOf tp' ++ buf'⟩) = fieldsOf tp' ++ buf' := rfl
      rw [this, hfields, names_append, names_map_param]
      rcases List.mem_cons.1 hn with rfl | h
      · simp [names, fieldsOf, param]
      · exact List.mem_append_right _ h
    have hnext := inferred_next_ok b [] (by simp; decide)
    rw [List.append_nil] at hnext
    refine ⟨.duplicateArgumentName n, ?_⟩
    rw [Parse, tokens_inferred hf hT ha _ hns, parseTokens_eq_run, e,
      run_first_input hf hT ha, hrun, run_cons,
      step_arrow_flush _ _ (by simpa using ordinary_ne_nil hon), ok_bind, run_cons,
      step_infer_duplicate hon _ _ hnext _ _ _ _ _ (ordinary_ne_nil hT) hd]
    rfl

/-- C6: for ordinary identifiers `f`, `T`, `a`, `Parse "f :: T a -> a"` returns
an error; more generally, for names `n1..nk` of which one equals `a` or an
earlier `nj`, `Parse "f :: T a -> n1 -> ... -> nk"` returns an error. -/
theorem C6_duplicate_name_outside_group_rejected (f T a : String) (hf : ordinary f = true)
    (hT : ordinary T = true) (ha : ordinary a = true) :
    (∃ e, Parse (unwords [f, "::", T, a, "->", a]) = .error e) ∧
    ∀ ns : List String, (∀ n ∈ ns, ordinary n = true) → ¬ (a :: ns).Nodup →
      ∃ e, Parse (unwords ([f, "::", T, a] ++ inferredParams ns)) = .error e :=
  ⟨duplicate_rejected f T a hf hT ha [a] (by simpa using ha) (by simp),
    fun ns hns hdup => duplicate_rejected f T a hf hT ha ns hns hdup⟩

/-- Witness of C6 at `TestFunc :: Int a -> a` and `TestFunc :: Int a -> b -> c -> b`. -/
theorem C6_witness :
    (ordinary "TestFunc" = true ∧ ordinary "Int" = true ∧ ordinary "a" = true) ∧
    (∃ e, Parse "TestFunc :: Int a -> a" = .error e) ∧
    ((∀ n ∈ ["b", "c", "b"], ordinary n = true) ∧ ¬ ("a" :: ["b", "c", "b"]).Nodup) ∧
    ∃ e, Parse "TestFunc :: Int a -> b -> c -> b" = .error e :=
  ⟨by decide,
    (C6_duplicate_name_outside_group_rejected "TestFunc" "Int" "a" (by decide) (by decide)
      (by decide)).1,
    by decide,
    (C6_duplicate_name_outside_group_rejected "TestFunc" "Int" "a" (by decide) (by decide)
      (by decide)).2 ["b", "c", "b"] (by decide) (by decide)⟩

/-! ## Output groups (C4, C5) -/

theorem plain_typedOutputs (outs : List (String × String))
    (hp : ∀ p ∈ outs, ordinary p.1 = true ∧ ordinary p.2 = true) :
    ∀ w ∈ typedOutputs outs, Plain w := by
  intro w hw
  simp only [typedOutputs, List.mem_flatten, List.mem_map] at hw
  obtain ⟨l, ⟨p, hpm, rfl⟩, hw⟩ := hw
  simp only [List.mem_cons, List.mem_singleton, List.not_mem_nil, or_false] at hw
  rcases hw with rfl | rfl | rfl
  · exact plain_arrow
  · exact plain_of_ordinary (hp p hpm).1
  · exact plain_of_ordinary (hp p hpm).2

theorem finish_empty (fd : FuncDecl) (blk : Bool) (prev : String) (st : State) :
    finish ⟨fd, ⟨[]⟩, blk, prev, st⟩ = .ok fd := rfl

/-- The loop after `f :: T a -> (`. -/
theorem run_open_group {f T a : String} (hf : ordinary f = true) (hT : ordinary T = true)
    (ha : ordinary a = true) (rest : List String) :
    run [] (f :: OPERATOR_TOKEN :: T :: a :: FUNC_CONSTRUCTOR :: OPEN_OUTPUT_BLOCK :: rest)
        initialLocals =
      run ([f, OPERATOR_TOKEN] ++ [T, a] ++ [FUNC_CONSTRUCTOR] ++ [OPEN_OUTPUT_BLOCK]) rest
        ⟨⟨none, some f, some ⟨some ⟨[param a T]⟩⟩⟩, ⟨[]⟩, true, T, .ARG_TYPE_STATE⟩ := by
  rw [run_first_input hf hT ha, run_cons, step_arrow_flush _ _ (by simp; decide), ok_bind,
    run_cons, step_open, ok_bind]
  rfl

theorem run_typedOutputs (outs : List (String × String))
    (hp : ∀ p ∈ outs, ordinary p.1 = true ∧ ordinary p.2 = true)
    (hnd : (outs.map Prod.snd).Nodup) (tail pre : List String) (fd : FuncDecl)
    (buf : List Field) (prev : String) (st : State)
    (hfresh : ∀ p ∈ outs, p.2 ∉ names buf) :
    ∃ prev' st',
      run pre (typedOutputs outs ++ tail) ⟨fd, ⟨buf⟩, true, prev, st⟩ =
        run (pre ++ typedOutputs outs) tail
          ⟨fd, ⟨buf ++ outs.map fun p => param p.2 p.1⟩, true, prev', st'⟩ := by
  induction outs generalizing pre buf prev st with
  | nil => exact ⟨prev, st, by simp [typedOutputs]⟩
  | cons p ps ih =>
    obtain ⟨hU, hb⟩ := hp p (by simp)
    have hps : ∀ q ∈ ps, ordinary q.1 = true ∧ ordinary q.2 = true :=
      fun q hq => hp q (List.mem_cons_of_mem _ hq)
    rw [List.map_cons, List.nodup_cons] at hnd
    obtain ⟨hnotin, hnd'⟩ := hnd
    have e : typedOutputs (p :: ps) ++ tail =
        FUNC_CONSTRUCTOR :: p.1 :: p.2 :: (typedOutputs ps ++ tail) := by
      simp [typedOutputs]
    have e' : pre ++ typedOutputs (p :: ps) =
        pre ++ [FUNC_CONSTRUCTOR] ++ [p.1, p.2] ++ typedOutputs ps := by
      simp [typedOutputs]
    have hfresh' : ∀ q ∈ ps, q.2 ∉ names (buf ++ [param p.2 p.1]) := by
      intro q hq
      have h1 := hfresh q (List.mem_cons_of_mem _ hq)
      have h2 : q.2 ≠ p.2 := fun h => hnotin (h ▸ List.mem_map_of_mem Prod.snd hq)
      simp only [names_append, List.mem_append, not_or]
      exact ⟨h1, by simpa [names, param] using h2⟩
    obtain ⟨prev', st', hrun⟩ := ih hps hnd' (pre ++ [FUNC_CONSTRUCTOR] ++ [p.1, p.2])
      (buf ++ [param p.2 p.1]) p.1 .ARG_NAME_STATE hfresh'
    refine ⟨prev', st', ?_⟩
    rw [e, e', run_cons, step_arrow_block _ _ (by simpa using ordinary_ne_nil hU), ok_bind,
      run_typed hU hb _ _ _ _ _ _ ((hasName_eq_false_iff _ _).2 (hfresh p (by simp))), hrun]
    simp

theorem grouped_outputs (f T a U b : String) (outs : List (String × String))
    (hf : ordinary f = true) (hT : ordinary T = true) (ha : ordinary a = true)
    (hU : ordinary U = true) (hb : ordinary b = true)
    (hp : ∀ p ∈ outs, ordinary p.1 = true ∧ ordinary p.2 = true)
    (hnd : (b :: outs.map Prod.snd).Nodup) :
    Parse (unwords ([f, "::", T, a, "->"] ++
        ["(" ++ unwords (U :: b :: typedOutputs outs) ++ ")"])) =
      .ok ⟨some ⟨param b U :: outs.map (fun p => param p.2 p.1)⟩, some f,
        some ⟨some ⟨[param a T]⟩⟩⟩ := by
  have hw : ∀ w ∈ [f, "::", T, a, "->"], Word w := by
    intro w hw
    simp only [List.mem_cons, List.mem_singleton, List.not_mem_nil, or_false] at hw
    rcases hw with rfl | rfl | rfl | rfl | rfl
    · exact word_of_ordinary hf
    · exact Or.inl plain_operator
    · exact word_of_ordinary hT
    · exact word_of_ordinary ha
    · exact Or.inl plain_arrow
  have hows : ∀ w ∈ b :: typedOutputs outs, Plain w := by
    intro w hw
    rcases List.mem_cons.1 hw with rfl | h
    · exact plain_of_ordinary hb
    · exact plain_typedOutputs outs hp w h
  obtain ⟨hnotin, hnd'⟩ := List.nodup_cons.1 hnd
  have hfresh : ∀ p ∈ outs, p.2 ∉ names ([] ++ [param b U]) := by
    intro p hp' h
    have : p.2 = b := by simpa [names, param] using h
    exact hnotin (this ▸ List.mem_map_of_mem Prod.snd hp')
  obtain ⟨prev', st', hrun⟩ := run_typedOutputs outs hp hnd' [CLOSE_OUTPUT_BLOCK]
    ([f, OPERATOR_TOKEN] ++ [T, a] ++ [FUNC_CONSTRUCTOR] ++ [OPEN_OUTPUT_BLOCK] ++ [U, b])
    ⟨none, some f, some ⟨some ⟨[param a T]⟩⟩⟩ ([] ++ [param b U]) U .ARG_NAME_STATE hfresh
  rw [Parse, tokens_unwords_group _ U _ hw (List.mem_cons_self f _) hf (plain_of_ordinary hU)
    (by simp) hows, parseTokens_eq_run]
  have e : [f, "::", T, a, "->"] ++ "(" :: U :: (b :: typedOutputs outs) ++ [")"] =
      f :: OPERATOR_TOKEN :: T :: a :: FUNC_CONSTRUCTOR :: OPEN_OUTPUT_BLOCK ::
        U :: b :: (typedOutputs outs ++ [CLOSE_OUTPUT_BLOCK]) := by
    simp [OPERATOR_TOKEN, FUNC_CONSTRUCTOR, OPEN_OUTPUT_BLOCK, CLOSE_OUTPUT_BLOCK]
  rw [e, run_open_group hf hT ha, run_typed hU hb _ _ _ _ _ _ (by simp [hasName]), hrun,
    run_cons, step_close, ok_bind, run_nil, ok_bind, finish_empty]
  simp

/-- C4: for ordinary identifiers `f`, `T`, `a` and `m ≥ 1` typed outputs
`(U1,b1)..(Um,bm)` with pairwise distinct names (which may coincide with `a`),
`Parse "f :: T a -> (U1 b1 -> ... -> Um bm)"` succeeds with inputs `[{a:T}]`
and outputs exactly `[{b1:U1}, ..., {bm:Um}]` in textual order; in particular
`Parse "f :: T a -> (U a)"` succeeds. -/
theorem C4_grouped_multi_output (f T a : String) (hf : ordinary f = true)
    (hT : ordinary T = true) (ha : ordinary a = true) :
    (∀ (U b : String) (outs : List (String × String)), ordinary U = true → ordinary b = true →
      (∀ p ∈ outs, ordinary p.1 = true ∧ ordinary p.2 = true) →
      (b :: outs.map Prod.snd).Nodup →
      ∃ d, Parse (unwords ([f, "::", T, a, "->"] ++
            ["(" ++ unwords (U :: b :: typedOutputs outs) ++ ")"])) = .ok d ∧
        d.inputs = [param a T] ∧
        d.outputs = param b U :: outs.map (fun p => param p.2 p.1)) ∧
    (∀ U : String, ordinary U = true →
      ∃ d, Parse (unwords [f, "::", T, a, "->", "(" ++ U ++ " " ++ a ++ ")"]) = .ok d ∧
        d.inputs = [param a T] ∧ d.outputs = [param a U]) := by
  refine ⟨fun U b outs hU hb hp hnd =>
    ⟨_, grouped_outputs f T a U b outs hf hT ha hU hb hp hnd, rfl, rfl⟩, fun U hU => ?_⟩
  have := grouped_outputs f T a U a [] hf hT ha hU ha (by simp) (by simp)
  refine ⟨⟨some ⟨[param a U]⟩, some f, some ⟨some ⟨[param a T]⟩⟩⟩, ?_, rfl, rfl⟩
  simpa [unwords, typedOutputs, String.append_assoc] using this

/-- Witness of C4 at `TestFunc :: Int a -> (String b -> Int c)` and
`TestFunc :: Int a -> (Int a)`. -/
theorem C4_witness :
    (ordinary "TestFunc" = true ∧ ordinary "Int" = true ∧ ordinary "a" = true) ∧
    ((ordinary "String" = true ∧ ordinary "b" = true ∧
        (∀ p ∈ [("Int", "c")], ordinary p.1 = true ∧ ordinary p.2 = true) ∧
        ("b" :: [("Int", "c")].map Prod.snd).Nodup) ∧
      ∃ d, Parse "TestFunc :: Int a -> (String b -> Int c)" = .ok d ∧
        d.inputs = [param "a" "Int"] ∧ d.outputs = [param "b" "String", param "c" "Int"]) ∧
    ∃ d, Parse "TestFunc :: Int a -> (Int a)" = .ok d ∧
      d.inputs = [param "a" "Int"] ∧ d.outputs = [param "a" "Int"] :=
  ⟨by decide,
    ⟨by decide, (C4_grouped_multi_output "TestFunc" "Int" "a" (by decide) (by decide)
      (by decide)).1 "String" "b" [("Int", "c")] (by decide) (by decide) (by decide) (by decide)⟩,
    (C4_grouped_multi_output "TestFunc" "Int" "a" (by decide) (by decide) (by decide)).2
      "Int" (by decide)⟩

theorem run_inferredOutputs (ns : List String) (hns : ∀ n ∈ ns, ordinary n = true)
    {T : String} (hT : T ≠ "") (tail : List String)
    (ht : TrimSpace (tail.head?.getD "") = "" ∨ tail.head?.getD "" = FUNC_CONSTRUCTOR ∨
      tail.head?.getD "" = CLOSE_OUTPUT_BLOCK)
    (pre : List String) (name : Option String) (typ : Option FuncType) (buf : List Field)
    (st : State) :
    ∃ st',
      run pre (inferredParams ns ++ tail) ⟨⟨none, name, typ⟩, ⟨buf⟩, true, T, st⟩ =
        run (pre ++ inferredParams ns) tail
          ⟨⟨none, name, typ⟩, ⟨buf ++ ns.map fun n => param n T⟩, true, T, st'⟩ := by
  induction ns generalizing pre buf st with
  | nil => exact ⟨st, by simp [inferredParams]⟩
  | cons n ns ih =>
    have hn := hns n (by simp)
    have hns' : ∀ m ∈ ns, ordinary m = true := fun m hm => hns m (List.mem_cons_of_mem _ hm)
    have e : inferredParams (n :: ns) ++ tail =
        FUNC_CONSTRUCTOR :: n :: (inferredParams ns ++ tail) := by
      simp [inferredParams]
    have e' : pre ++ inferredParams (n :: ns) =
        pre ++ [FUNC_CONSTRUCTOR] ++ [n] ++ inferredParams ns := by
      simp [inferredParams]
    obtain ⟨st', hrun⟩ := ih hns' (pre ++ [FUNC_CONSTRUCTOR] ++ [n])
      (buf ++ [⟨[n], some T⟩]) .ARG_TYPE_STATE
    refine ⟨st', ?_⟩
    rw [e, e', run_cons, step_arrow_block _ _ (by simpa using ordinary_ne_nil hn), ok_bind,
      run_cons, step_infer_block hn _ _ (inferred_next_ok ns tail ht) _ _ _ _ hT, ok_bind, hrun]
    simp [param]

/-- C5: for ordinary identifiers `f`, `T`, `a` and pairwise distinct names
`n1..nk` (`k ≥ 1`, written `n :: ns`), `Parse "f :: T a -> ( n1 -> ... -> nk )"`
succeeds with inputs `[{a:T}]` and outputs `[{n1:T}, ..., {nk:T}]`: the name
that follows `(` takes the type of the last input. -/
theorem C5_inference_inside_group (f T a n : String) (ns : List String)
    (hf : ordinary f = true) (hT : ordinary T = true) (ha : ordinary a = true)
    (hns : ∀ m ∈ n :: ns, ordinary m = true) (_hdistinct : (n :: ns).Nodup) :
    ∃ d, Parse (unwords ([f, "::", T, a, "->", "(", n] ++ inferredParams ns ++ [")"])) = .ok d ∧
      d.inputs = [param a T] ∧ d.outputs = (n :: ns).map (fun m => param m T) := by
  have hn := hns n (by simp)
  have hns' : ∀ m ∈ ns, ordinary m = true := fun m hm => hns m (List.mem_cons_of_mem _ hm)
  have hw : ∀ w ∈ [f, "::", T, a, "->", "(", n] ++ inferredParams ns ++ [")"], Word w := by
    intro w hw
    simp only [List.mem_append, List.mem_cons, List.mem_singleton, List.not_mem_nil,
      or_false] at hw
    rcases hw with ((rfl | rfl | rfl | rfl | rfl | rfl | rfl) | h) | rfl
    · exact word_of_ordinary hf
    · exact Or.inl plain_operator
    · exact word_of_ordinary hT
    · exact word_of_ordinary ha
    · exact Or.inl plain_arrow
    · exact Or.inr (Or.inl rfl)
    · exact word_of_ordinary hn
    · exact Or.inl (plain_inferredParams ns hns' w h)
    · exact Or.inr (Or.inr rfl)
  have htail : TrimSpace (([CLOSE_OUTPUT_BLOCK] : List String).head?.getD "") = "" ∨
      ([CLOSE_OUTPUT_BLOCK] : List String).head?.getD "" = FUNC_CONSTRUCTOR ∨
      ([CLOSE_OUTPUT_BLOCK] : List String).head?.getD "" = CLOSE_OUTPUT_BLOCK := by simp
  obtain ⟨st', hrun⟩ := run_inferredOutputs ns hns' (ordinary_ne_nil hT) [CLOSE_OUTPUT_BLOCK]
    htail ([f, OPERATOR_TOKEN] ++ [T, a] ++ [FUNC_CONSTRUCTOR] ++ [OPEN_OUTPUT_BLOCK] ++ [n])
    (some f) (some ⟨some ⟨[param a T]⟩⟩) ([] ++ [⟨[n], some T⟩]) .ARG_TYPE_STATE
  refine ⟨⟨some ⟨(n :: ns).map (fun m => param m T)⟩, some f, some ⟨some ⟨[param a T]⟩⟩⟩,
    ?_, rfl, rfl⟩
  rw [Parse, tokens_unwords _ hw (List.mem_append_left _ (List.mem_append_left _
    (List.mem_cons_self f _))) hf, parseTokens_eq_run]
  have e : [f, "::", T, a, "->", "(", n] ++ inferredParams ns ++ [")"] =
      f :: OPERATOR_TOKEN :: T :: a :: FUNC_CONSTRUCTOR :: OPEN_OUTPUT_BLOCK ::
        n :: (inferredParams ns ++ [CLOSE_OUTPUT_BLOCK]) := by
    simp [OPERATOR_TOKEN, FUNC_CONSTRUCTOR, OPEN_OUTPUT_BLOCK, CLOSE_OUTPUT_BLOCK]
  rw [e, run_open_group hf hT ha, run_cons,
    step_infer_block hn _ _ (inferred_next_ok ns _ htail) _ _ _ _ (ordinary_ne_nil hT), ok_bind,
    hrun, run_cons, step_close, ok_bind, run_nil, ok_bind, finish_empty]
  simp [param]

/-- Witness of C5 at `TestFunc :: Int a -> ( b -> c )`. -/
theorem C5_witness :
    (ordinary "TestFunc" = true ∧ ordinary "Int" = true ∧ ordinary "a" = true ∧
      (∀ m ∈ ["b", "c"], ordinary m = true) ∧ ["b", "c"].Nodup) ∧
    ∃ d, Parse "TestFunc :: Int a -> ( b -> c )" = .ok d ∧
      d.inputs = [param "a" "Int"] ∧ d.outputs = [param "b" "Int", param "c" "Int"] :=
  ⟨by decide, C5_inference_inside_group "TestFunc" "Int" "a" "b" ["c"]
    (by decide) (by decide) (by decide) (by decide) (by decide)⟩

/-! ## The code at inputs where it departs from its tests and comments (C7, C8, C10) -/

/-- C7 (the code at the failing input): `Parse` accepts
`TestFunc :: Int a -> (String b -> b)` and returns two outputs named `b`,
where the claim and the test of the repository expect an error. -/
theorem C7_duplicate_in_group_is_accepted :
    Parse "TestFunc :: Int a -> (String b -> b)" =
      .ok ⟨some ⟨[param "b" "String", param "b" "String"]⟩, some "TestFunc",
        some ⟨some ⟨[param "a" "Int"]⟩⟩⟩ := by
  decide

/-- C8 (the code at the failing input): `Parse` accepts
`f :: Int a -> Int a -> String b` and returns two inputs named `a`. -/
theorem C8_duplicate_typed_inputs_are_accepted :
    ∃ d, Parse "f :: Int a -> Int a -> String b" = .ok d ∧
      d.inputs = [param "a" "Int", param "a" "Int"] ∧ ¬ (names d.inputs).Nodup :=
  ⟨⟨some ⟨[param "b" "String"]⟩, some "f", some ⟨some ⟨[param "a" "Int", param "a" "Int"]⟩⟩⟩,
    by decide, rfl, by decide⟩

/-- C10 (the code at the failing input): on `inc :: Num a => a -> a` the
token `=>` makes `Parse` dereference the nil `Recv`, a run-time panic. -/
theorem C10_instance_context_panics :
    Parse "inc :: Num a => a -> a" = .panic .nilDereference := by
  decide

/-! ## The loop as a transition relation -/

theorem appendNameToLast_ok {l r : List Field} {t : String}
    (h : appendNameToLast l t = .ok r) :
    ∃ init ns ty, l = init ++ [⟨ns, ty⟩] ∧ r = init ++ [⟨ns ++ [t], ty⟩] := by
  rcases List.eq_nil_or_concat l with rfl | ⟨init, f, rfl⟩
  · cases h
  · rw [List.concat_eq_append, appendNameToLast_concat] at h
    cases h
    exact ⟨init, f.Names, f.Typ, by simp, rfl⟩

/-- Every iteration of the loop that does not return or panic is one of the
transitions. -/
theorem step_ok_transition (pre : List String) (t : String) (rest : List String)
    (v v' : Locals) (h : step (pre ++ t :: rest) pre.length t v = .ok v') :
    Transition pre t rest v v' := by
  obtain ⟨⟨recv, name, typ⟩, ⟨buf⟩, blk, prev, st⟩ := v
  unfold step at h
  split at h
  · cases h
  · by_cases ho : t = OPEN_OUTPUT_BLOCK
    · rw [if_pos ho] at h
      cases h
      exact .openBlock _ _ _ _ _ ho
    · rw [if_neg ho] at h
      simp only [stateCase] at h
      split at h
      · rename_i hs
        cases h
        exact .funcName _ _ _ _ _ _ _ ho hs
      · rename_i hs
        split at h
        · cases h
        · rename_i ht
          rw [lookAhead_at] at h
          simp only [ok_bind] at h
          split at h
          · cases h
          · rename_i hn
            cases h
            exact .operator _ _ _ _ _ _ _ (not_not.1 ht) hn
      · rename_i hs
        cases recv with
        | none => simp at h
        | some r =>
          simp only [Outcome.ok.injEq] at h
          subst h
          exact .instanceContext _ _ _ _ _ _ _ ho hs
      · rename_i hs
        simp only [argTypeCase, lookAhead_at, lookBehind_at, lookBehind_at_pred, ok_bind,
          pure_eq_ok] at h
        rw [hs] at h
        by_cases hn : TrimSpace (rest.head?.getD "") = "" ∨
            rest.head?.getD "" = FUNC_CONSTRUCTOR ∨ rest.head?.getD "" = CLOSE_OUTPUT_BLOCK
        · rw [if_pos hn] at h
          by_cases hp : prev = ""
          · rw [hp] at h
            simp only [and_true] at h
            split_ifs at h
          · simp only [hp, and_false, if_false, ite_self] at h
            cases hd : duplicateCheck
                ⟨⟨recv, name, typ⟩, ⟨buf⟩, blk, prev, .ARG_TYPE_STATE⟩ t with
            | ok b =>
              rw [hd] at h
              cases b with
              | true => simp at h
              | false =>
                simp only [ok_bind, Bool.false_eq_true, if_false, Outcome.ok.injEq] at h
                subst h
                exact .infer _ _ _ _ _ ho hs hp hd
            | error e => rw [hd] at h; simp at h
            | panic p => rw [hd] at h; simp at h
        · rw [if_neg hn] at h
          simp only [Outcome.ok.injEq] at h
          subst h
          simp only [not_or] at hn
          exact .argType _ _ _ _ _ ho hs hn.1 hn.2.1 hn.2.2
      · rename_i hs
        rw [hs] at h
        by_cases hd : hasName buf t = true
        · simp [hd] at h
        · simp only [hd, Bool.false_eq_true, if_false] at h
          cases ha : appendNameToLast buf t with
          | ok r =>
            rw [ha] at h
            simp only [ok_bind, pure_eq_ok, Outcome.ok.injEq] at h
            subst h
            obtain ⟨init, ns, ty, rfl, rfl⟩ := appendNameToLast_ok ha
            exact .argName _ _ _ _ _ _ _ ho hs (by simpa using hd)
          | error e => rw [ha] at h; simp at h
          | panic p => rw [ha] at h; simp at h
      · rename_i hs
        rw [lookAhead_at] at h
        simp only [ok_bind] at h
        by_cases hn : rest.head?.getD "" = ""
        · simp [hn] at h
        · rw [if_neg hn] at h
          cases blk with
          | true =>
            simp only [not_true_eq_false, if_false, pure_eq_ok, Outcome.ok.injEq] at h
            subst h
            exact .arrowInBlock _ _ _ _ ho hs hn
          | false =>
            cases typ with
            | none => simp at h
            | some ty =>
              obtain ⟨tp⟩ := ty
              cases tp with
              | none =>
                simp only [Bool.false_eq_true, not_false_eq_true, if_true, pure_eq_ok,
                  Outcome.ok.injEq] at h
                subst h
                exact .flush _ _ _ _ _ _ ho hs hn
              | some fl =>
                simp only [Bool.false_eq_true, not_false_eq_true, if_true, pure_eq_ok,
                  Outcome.ok.injEq] at h
                subst h
                exact .flush _ _ _ _ _ _ ho hs hn
      · rename_i hs
        rw [hs] at h
        cases blk with
        | false => simp at h
        | true =>
          by_cases hl : ((pre.length : Nat) : Int) = ((pre ++ t :: rest).length : Nat) - 1
          · simp only [not_true_eq_false, if_false, ne_eq, hl, Outcome.ok.injEq] at h
            subst h
            exact .close _ _ _ _ _ _ ho hs ((last_position_iff pre t rest).1 hl)
          · simp only [not_true_eq_false, if_false, ne_eq, hl, not_false_eq_true,
              if_true] at h
            cases h

/-! ## Invariants of the loop -/

/-- An invariant kept by every transition holds at the end of a run. -/
theorem run_invariant (tokens : List String) (P : List String → List String → Locals → Prop)
    (hstep : ∀ pre t rest v v', pre ++ t :: rest = tokens → P pre (t :: rest) v →
      Transition pre t rest v v' → P (pre ++ [t]) rest v') :
    ∀ (rest pre : List String) (v v' : Locals), pre ++ rest = tokens → P pre rest v →
      run pre rest v = .ok v' → P tokens [] v' := by
  intro rest
  induction rest with
  | nil =>
    intro pre v v' hpre hP hrun
    rw [run_nil] at hrun
    cases hrun
    rw [List.append_nil] at hpre
    rw [← hpre]
    exact hP
  | cons t rest ih =>
    intro pre v v' hpre hP hrun
    rw [run_cons] at hrun
    cases hs : step (pre ++ t :: rest) pre.length t v with
    | ok w =>
      rw [hs] at hrun
      exact ih (pre ++ [t]) w v' (by simpa using hpre)
        (hstep pre t rest v w hpre hP (step_ok_transition pre t rest v w hs)) hrun
    | error e => rw [hs] at hrun; cases hrun
    | panic p => rw [hs] at hrun; cases hrun

theorem fromTokens_of_mem_append {tokens : List String} {l₁ l₂ : List Field}
    (h₁ : ∀ fld ∈ l₁, FromTokens tokens fld) (h₂ : ∀ fld ∈ l₂, FromTokens tokens fld) :
    ∀ fld ∈ l₁ ++ l₂, FromTokens tokens fld := by
  intro fld hf
  rcases List.mem_append.1 hf with h | h
  · exact h₁ fld h
  · exact h₂ fld h

theorem invTokens_step (tokens pre : List String) (t : String) (rest : List String)
    (v v' : Locals) (ht : t ∈ tokens) (hinv : InvTokens tokens (t :: rest) v)
    (htr : Transition pre t rest v v') : InvTokens tokens rest v' := by
  obtain ⟨h1, hp, h2, h3, h4⟩ := hinv
  cases htr with
  | openBlock fd buf blk prev st _ => exact ⟨fun h => absurd (h1 h) (by simp), hp, h2, h3, h4⟩
  | funcName recv name typ buf blk prev st _ _ =>
    exact ⟨fun h => absurd (h1 h) (by simp), hp, h2, h3, h4⟩
  | operator recv name typ buf blk prev st _ _ =>
    exact ⟨fun h => absurd (h1 h) (by simp), hp, h2, by simp [FuncDecl.inputs], h4⟩
  | instanceContext recv name typ buf blk prev st _ _ => exact absurd (h1 (by simp)) (by simp)
  | argType fd buf blk prev st _ _ _ _ _ =>
    refine ⟨fun h => absurd (h1 h) (by simp), Or.inr ht, ?_, h3, h4⟩
    exact fromTokens_of_mem_append h2 (by simp [FromTokens, ht])
  | infer fd buf blk prev st _ _ hprev _ =>
    refine ⟨fun h => absurd (h1 h) (by simp), hp, ?_, h3, h4⟩
    have hmem : prev ∈ tokens := hp.resolve_left hprev
    exact fromTokens_of_mem_append h2 (by simp [FromTokens, ht, hmem])
  | argName fd init ns ty blk prev st _ _ _ =>
    refine ⟨fun h => absurd (h1 h) (by simp), hp, ?_, h3, h4⟩
    have hlast := h2 ⟨ns, ty⟩ (by simp)
    refine fromTokens_of_mem_append (fun fld hf => h2 fld (by simp [hf])) ?_
    intro fld hf
    rw [List.mem_singleton] at hf
    subst hf
    refine ⟨?_, hlast.2⟩
    intro n hn
    rcases List.mem_append.1 hn with h | h
    · exact hlast.1 n h
    · rw [List.mem_singleton] at h
      exact h ▸ ht
  | flush recv name tp buf prev st _ _ _ =>
    refine ⟨fun h => absurd (h1 h) (by simp), hp, by simp, ?_, h4⟩
    have : ∀ fld ∈ fieldsOf tp, FromTokens tokens fld := by
      cases tp with
      | none => simp [fieldsOf]
      | some fl => simpa [FuncDecl.inputs, fieldsOf] using h3
    exact fromTokens_of_mem_append this h2
  | arrowInBlock fd buf prev st _ _ _ =>
    exact ⟨fun h => absurd (h1 h) (by simp), hp, h2, h3, h4⟩
  | close recv name typ buf prev st _ _ hr => exact ⟨fun _ => hr, hp, by simp, h3, h2⟩

theorem forcedState_cases (t : String) (st : State) :
    (t = OPERATOR_TOKEN ∧ forcedState t st = .OPERATOR_TOKEN_STATE) ∨
    (t = INSTANCE_CONTEXT ∧ forcedState t st = .INSTANCE_CONTEXT_TOKEN_STATE) ∨
    (t = FUNC_CONSTRUCTOR ∧ forcedState t st = .FUNC_TYPE_CONSTRUCTOR_TOKEN_STATE) ∨
    (t = CLOSE_OUTPUT_BLOCK ∧ forcedState t st = .CLOSE_OUTPUT_BLOCK_STATE) ∨
    (t ≠ OPERATOR_TOKEN ∧ t ≠ INSTANCE_CONTEXT ∧ t ≠ FUNC_CONSTRUCTOR ∧
      t ≠ CLOSE_OUTPUT_BLOCK ∧ forcedState t st = st) := by
  unfold forcedState
  by_cases h1 : t = OPERATOR_TOKEN
  · exact Or.inl ⟨h1, by rw [if_pos h1]⟩
  by_cases h2 : t = INSTANCE_CONTEXT
  · exact Or.inr (Or.inl ⟨h2, by rw [if_neg h1, if_pos h2]⟩)
  by_cases h3 : t = FUNC_CONSTRUCTOR
  · exact Or.inr (Or.inr (Or.inl ⟨h3, by rw [if_neg h1, if_neg h2, if_pos h3]⟩))
  by_cases h4 : t = CLOSE_OUTPUT_BLOCK
  · exact Or.inr (Or.inr (Or.inr (Or.inl
      ⟨h4, by rw [if_neg h1, if_neg h2, if_neg h3, if_pos h4]⟩)))
  · exact Or.inr (Or.inr (Or.inr (Or.inr
      ⟨h1, h2, h3, h4, by rw [if_neg h1, if_neg h2, if_neg h3, if_neg h4]⟩)))

/-- A state of the argument list is never forced: the token is then no literal. -/
theorem forcedState_unforced {t : String} {st : State}
    (h : forcedState t st = .ARG_TYPE_STATE ∨ forcedState t st = .ARG_NAME_STATE ∨
      forcedState t st = .FUNC_NAME_STATE) :
    forcedState t st = st ∧ t ≠ OPERATOR_TOKEN ∧ t ≠ FUNC_CONSTRUCTOR ∧
      t ≠ CLOSE_OUTPUT_BLOCK := by
  rcases forcedState_cases t st with ⟨-, e⟩ | ⟨-, e⟩ | ⟨-, e⟩ | ⟨-, e⟩ | ⟨h1, -, h3, h4, e⟩
  · rw [e] at h; simp at h
  · rw [e] at h; simp at h
  · rw [e] at h; simp at h
  · rw [e] at h; simp at h
  · exact ⟨e, h1, h3, h4⟩

theorem parse_ok_run {s : String} {d : FuncDecl} (h : Parse s = .ok d) :
    ∃ v, run [] (splitPrototypeIntoTokens s) initialLocals = .ok v ∧ finish v = .ok d := by
  rw [Parse, parseTokens_eq_run] at h
  cases hr : run [] (splitPrototypeIntoTokens s) initialLocals with
  | ok v => rw [hr] at h; exact ⟨v, rfl, h⟩
  | error e => rw [hr] at h; cases h
  | panic p => rw [hr] at h; cases h

/-- What `finish` returns: the declaration built by the loop, with the buffer as
`Recv` when the buffer holds one field. -/
theorem finish_ok {v : Locals} {d : FuncDecl} (h : finish v = .ok d) :
    d.inputs = v.funcDecleration.inputs ∧
    (d.outputs = v.funcDecleration.outputs ∨ d.outputs = v.fieldsBuffer.List) := by
  obtain ⟨fd, ⟨buf⟩, blk, prev, st⟩ := v
  unfold finish at h
  split at h
  · cases h; exact ⟨rfl, Or.inl rfl⟩
  · split at h
    · cases h; exact ⟨rfl, Or.inr rfl⟩
    · cases h
  · cases h

/-- Every parameter of an accepted signature is made of tokens of the input. -/
theorem fromTokens_of_parse_ok {s : String} {d : FuncDecl} (hok : Parse s = .ok d) :
    ∀ fld ∈ d.inputs ++ d.outputs, FromTokens (splitPrototypeIntoTokens s) fld := by
  obtain ⟨v, hrun, hfin⟩ := parse_ok_run hok
  have hinv : InvTokens (splitPrototypeIntoTokens s) [] v :=
    run_invariant (splitPrototypeIntoTokens s)
      (fun _ rest v => InvTokens (splitPrototypeIntoTokens s) rest v)
      (fun pre t rest v v' hpre hP htr =>
        invTokens_step (splitPrototypeIntoTokens s) pre t rest v v'
          (by rw [← hpre]; simp) hP htr)
      (splitPrototypeIntoTokens s) [] initialLocals v rfl
      ⟨fun h => absurd rfl h, Or.inl rfl, by simp [initialLocals],
        by simp [initialLocals, FuncDecl.inputs], by simp [initialLocals, FuncDecl.outputs]⟩ hrun
  obtain ⟨-, -, h2, h3, h4⟩ := hinv
  obtain ⟨hi, ho | ho⟩ := finish_ok hfin
  · rw [hi, ho]; exact fromTokens_of_mem_append h3 h4
  · rw [hi, ho]; exact fromTokens_of_mem_append h3 h2

/-- C9 (as amended): for every input on which `Parse` succeeds, every parameter
in inputs and in outputs has a type, and its type text and each of its names
are tokens of the input; so, when the token sequence holds no empty token, the
type text is not the empty string and no name is the empty string.  How many
names a parameter carries is not part of the statement. -/
theorem C9_parameter_names_and_types_are_tokens (s : String) (d : FuncDecl)
    (hok : Parse s = .ok d) :
    (∀ fld ∈ d.inputs ++ d.outputs,
      (∀ n ∈ fld.Names, n ∈ splitPrototypeIntoTokens s) ∧
      ∃ T, fld.Typ = some T ∧ T ∈ splitPrototypeIntoTokens s) ∧
    ("" ∉ splitPrototypeIntoTokens s →
      ∀ fld ∈ d.inputs ++ d.outputs,
        (∀ n ∈ fld.Names, n ≠ "") ∧ ∃ T, fld.Typ = some T ∧ T ≠ "") := by
  refine ⟨fromTokens_of_parse_ok hok, fun hne fld hf => ?_⟩
  obtain ⟨hn, T, hT, hmem⟩ := fromTokens_of_parse_ok hok fld hf
  exact ⟨fun n h e => hne (e ▸ hn n h), T, hT, fun e => hne (e ▸ hmem)⟩

/-- Witness of C9 (as amended) at `TestFunc :: Int a -> (String b -> Int c)`,
whose token sequence holds no empty token. -/
theorem C9_witness :
    (Parse "TestFunc :: Int a -> (String b -> Int c)" =
        .ok ⟨some ⟨[param "b" "String", param "c" "Int"]⟩, some "TestFunc",
          some ⟨some ⟨[param "a" "Int"]⟩⟩⟩ ∧
      "" ∉ splitPrototypeIntoTokens "TestFunc :: Int a -> (String b -> Int c)") ∧
    (∀ fld ∈ [param "a" "Int"] ++ [param "b" "String", param "c" "Int"],
      (∀ n ∈ fld.Names, n ∈ splitPrototypeIntoTokens "TestFunc :: Int a -> (String b -> Int c)") ∧
      ∃ T, fld.Typ = some T ∧
        T ∈ splitPrototypeIntoTokens "TestFunc :: Int a -> (String b -> Int c)") ∧
    ∀ fld ∈ [param "a" "Int"] ++ [param "b" "String", param "c" "Int"],
      (∀ n ∈ fld.Names, n ≠ "") ∧ ∃ T, fld.Typ = some T ∧ T ≠ "" :=
  ⟨⟨by decide, by decide⟩,
    (C9_parameter_names_and_types_are_tokens "TestFunc :: Int a -> (String b -> Int c)"
      ⟨some ⟨[param "b" "String", param "c" "Int"]⟩, some "TestFunc",
        some ⟨some ⟨[param "a" "Int"]⟩⟩⟩ (by decide)).1,
    (C9_parameter_names_and_types_are_tokens "TestFunc :: Int a -> (String b -> Int c)"
      ⟨some ⟨[param "b" "String", param "c" "Int"]⟩, some "TestFunc",
        some ⟨some ⟨[param "a" "Int"]⟩⟩⟩ (by decide)).2 (by decide)⟩

/-- C9 (counterexamples to the claim as stated): `Parse` accepts `f :: Int (`
with an output that has no name, `f :: Int :: a -> b` with an input that has
no name, `f :: Int a -> ( b  )` with an output whose name is empty, and
`f :: Int a -> (  x` with an output whose type is empty. -/
theorem C9_counterexample :
    (∃ d, Parse "f :: Int (" = .ok d ∧ ∃ fld ∈ d.inputs ++ d.outputs, fld.Names = []) ∧
    (∃ d, Parse "f :: Int :: a -> b" = .ok d ∧ ∃ fld ∈ d.inputs ++ d.outputs, fld.Names = []) ∧
    (∃ d, Parse "f :: Int a -> ( b  )" = .ok d ∧ ∃ fld ∈ d.inputs ++ d.outputs, "" ∈ fld.Names) ∧
    (∃ d, Parse "f :: Int a -> (  x" = .ok d ∧ ∃ fld ∈ d.inputs ++ d.outputs, fld.Typ = some "") :=
  ⟨⟨⟨some ⟨[⟨[], some "Int"⟩]⟩, some "f", some ⟨none⟩⟩, by decide, ⟨[], some "Int"⟩,
      by decide, rfl⟩,
    ⟨⟨some ⟨[param "b" "Int"]⟩, some "f", some ⟨some ⟨[⟨[], some "Int"⟩, param "a" "Int"]⟩⟩⟩,
      by decide, ⟨[], some "Int"⟩, by decide, rfl⟩,
    ⟨⟨some ⟨[param "b" "Int", param "" "Int"]⟩, some "f", some ⟨some ⟨[param "a" "Int"]⟩⟩⟩,
      by decide, param "" "Int", by decide, by decide⟩,
    ⟨⟨some ⟨[param "x" ""]⟩, some "f", some ⟨some ⟨[param "a" "Int"]⟩⟩⟩,
      by decide, param "x" "", by decide, rfl⟩⟩

/-! ## The instance-context token (C11) -/

/-- C11 (the code at the failing input): while `Recv` is nil the step on the
token `=>` is a nil dereference, whatever the other locals are; on
`inc :: Num a => a -> a` the loop reaches the fifth token `=>` with `Recv`
nil and panics there, where the claim says the step appends a context entry
and moves to `ARG_TYPE_STATE`. -/
theorem C11_instance_context_step_panics :
    (∀ (tokens : List String) (pos : Int) (name : Option String) (typ : Option FuncType)
        (buf : FieldList) (blk : Bool) (prev : String) (st : State),
      step tokens pos INSTANCE_CONTEXT ⟨⟨none, name, typ⟩, buf, blk, prev, st⟩ =
        .panic .nilDereference) ∧
    parseLoop (splitPrototypeIntoTokens "inc :: Num a => a -> a") 0 ["inc", "::", "Num", "a"]
        initialLocals =
      .ok ⟨⟨none, some "inc", some ⟨none⟩⟩, ⟨[param "a" "Num"]⟩, false, "Num",
        .ARG_NAME_STATE⟩ ∧
    step (splitPrototypeIntoTokens "inc :: Num a => a -> a") 4 "=>"
        ⟨⟨none, some "inc", some ⟨none⟩⟩, ⟨[param "a" "Num"]⟩, false, "Num", .ARG_NAME_STATE⟩ =
      .panic .nilDereference := by
  refine ⟨?_, by decide, by decide⟩
  intro tokens pos name typ buf blk prev st
  have hc : containsForbiddenCharacter INSTANCE_CONTEXT = none := by decide
  have ho : INSTANCE_CONTEXT ≠ OPEN_OUTPUT_BLOCK := by decide
  have h1 : INSTANCE_CONTEXT ≠ OPERATOR_TOKEN := by decide
  simp [step, hc, ho, forcedState, h1, stateCase]

/-! ## Reading a run token by token -/

/-- A run that succeeds on `a ++ b` passes through a state after `a`. -/
theorem run_split (a b : List String) (pre : List String) (v w : Locals)
    (h : run pre (a ++ b) v = .ok w) : ∃ v', run (pre ++ a) b v' = .ok w := by
  induction a generalizing pre v with
  | nil => exact ⟨v, by simpa using h⟩
  | cons t a ih =>
    rw [List.cons_append, run_cons] at h
    cases hs : step (pre ++ t :: (a ++ b)) pre.length t v with
    | ok v1 =>
      rw [hs, ok_bind] at h
      obtain ⟨v', hv'⟩ := ih (pre ++ [t]) v1 h
      exact ⟨v', by simpa using hv'⟩
    | error e => rw [hs] at h; cases h
    | panic p => rw [hs] at h; cases h

/-- In a run that succeeds every token is read by an iteration that succeeds. -/
theorem run_ok_step (a : List String) (t : String) (b : List String) (w : Locals)
    (h : run [] (a ++ t :: b) initialLocals = .ok w) :
    ∃ v v', step (a ++ t :: b) a.length t v = .ok v' := by
  obtain ⟨v, hv⟩ := run_split a (t :: b) [] initialLocals w h
  rw [List.nil_append, run_cons] at hv
  cases hs : step (a ++ t :: b) a.length t v with
  | ok v' => exact ⟨v, v', hs⟩
  | error e => rw [hs] at hv; cases hv
  | panic p => rw [hs] at hv; cases hv

/-- A parse that succeeds reads every token by an iteration that succeeds. -/
theorem parse_ok_step {s : String} {d : FuncDecl} (hok : Parse s = .ok d)
    (a : List String) (t : String) (b : List String)
    (ht : splitPrototypeIntoTokens s = a ++ t :: b) :
    ∃ v v', step (a ++ t :: b) a.length t v = .ok v' := by
  obtain ⟨w, hrun, -⟩ := parse_ok_run hok
  rw [ht] at hrun
  exact run_ok_step a t b w hrun

/-! ## Dangling operators (C14) -/

/-- With nothing after it, `::` is an error in every state. -/
theorem step_operator_last (pre : List String) (v : Locals) :
    step (pre ++ [OPERATOR_TOKEN]) pre.length OPERATOR_TOKEN v =
      .error .operatorWithoutParameters := by
  have hc : containsForbiddenCharacter OPERATOR_TOKEN = none := by decide
  have ho : OPERATOR_TOKEN ≠ OPEN_OUTPUT_BLOCK := by decide
  simp [step, hc, ho, forcedState, stateCase, lookAhead_at]

/-- With nothing after it, `->` is an error in every state. -/
theorem step_arrow_last (pre : List String) (v : Locals) :
    step (pre ++ [FUNC_CONSTRUCTOR]) pre.length FUNC_CONSTRUCTOR v =
      .error (.trailingConstructor pre.length) := by
  have hc : containsForbiddenCharacter FUNC_CONSTRUCTOR = none := by decide
  have ho : FUNC_CONSTRUCTOR ≠ OPEN_OUTPUT_BLOCK := by decide
  have h1 : FUNC_CONSTRUCTOR ≠ OPERATOR_TOKEN := by decide
  have h2 : FUNC_CONSTRUCTOR ≠ INSTANCE_CONTEXT := by decide
  simp [step, hc, ho, forcedState, h1, h2, stateCase, lookAhead_at]

/-- C14: for every input whose last token is `::` or `->`, `Parse` does not
succeed, and the iteration that reads that token returns an error in whatever
state the scan reaches it, because nothing follows it. -/
theorem C14_dangling_operator_rejected (s : String) (pre : List String) (t : String)
    (hs : splitPrototypeIntoTokens s = pre ++ [t])
    (ht : t = "::" ∨ t = "->") :
    (∀ v, ∃ e, step (pre ++ [t]) pre.length t v = .error e) ∧ ∀ d, Parse s ≠ .ok d := by
  have hstep : ∀ v, ∃ e, step (pre ++ [t]) pre.length t v = .error e := by
    intro v
    rcases ht with rfl | rfl
    · exact ⟨_, step_operator_last pre v⟩
    · exact ⟨_, step_arrow_last pre v⟩
  refine ⟨hstep, fun d hok => ?_⟩
  obtain ⟨v, v', hv⟩ := parse_ok_step hok pre t [] hs
  obtain ⟨e, he⟩ := hstep v
  rw [he] at hv
  cases hv

/-- Witness of C14 at `f ::` and at `f :: T a -> z ->`. -/
theorem C14_witness :
    ((splitPrototypeIntoTokens "f ::" = ["f"] ++ ["::"] ∧ ("::" = "::" ∨ "::" = "->")) ∧
      (∀ v, ∃ e, step (["f"] ++ ["::"]) (["f"] : List String).length "::" v = .error e) ∧
      ∀ d, Parse "f ::" ≠ .ok d) ∧
    ((splitPrototypeIntoTokens "f :: T a -> z ->" = ["f", "::", "T", "a", "->", "z"] ++ ["->"] ∧
        ("->" = "::" ∨ "->" = "->")) ∧
      (∀ v, ∃ e, step (["f", "::", "T", "a", "->", "z"] ++ ["->"])
        (["f", "::", "T", "a", "->", "z"] : List String).length "->" v = .error e) ∧
      ∀ d, Parse "f :: T a -> z ->" ≠ .ok d) :=
  ⟨⟨by decide, C14_dangling_operator_rejected "f ::" ["f"] "::" (by decide) (by decide)⟩,
    ⟨by decide, C14_dangling_operator_rejected "f :: T a -> z ->"
      ["f", "::", "T", "a", "->", "z"] "->" (by decide) (by decide)⟩⟩

/-! ## The token after the name (C18) -/

/-- In `OPERATOR_TOKEN_STATE` a token that is no literal is an error. -/
theorem step_expected_operator (tokens : List String) (pos : Int) (t : String)
    (h1 : t ≠ OPERATOR_TOKEN) (h2 : t ≠ INSTANCE_CONTEXT) (h3 : t ≠ FUNC_CONSTRUCTOR)
    (h4 : t ≠ OPEN_OUTPUT_BLOCK) (h5 : t ≠ CLOSE_OUTPUT_BLOCK)
    (fd : FuncDecl) (buf : FieldList) (blk : Bool) (prev : String) :
    ∃ e, step tokens pos t ⟨fd, buf, blk, prev, .OPERATOR_TOKEN_STATE⟩ = .error e := by
  unfold step
  cases hc : containsForbiddenCharacter t with
  | some e => exact ⟨e, rfl⟩
  | none =>
    refine ⟨.expectedOperator t, ?_⟩
    simp [h4, forcedState, h1, h2, h3, h5, stateCase]

/-- C18: for every input with at least two tokens whose first token is an
ordinary identifier and whose second token is none of the literal tokens
`::`, `=>`, `->`, `(`, `)`, `Parse` returns an error. -/
theorem C18_name_must_be_followed_by_operator (s f t : String) (rest : List String)
    (hs : splitPrototypeIntoTokens s = f :: t :: rest) (hf : ordinary f = true)
    (h1 : t ≠ "::") (h2 : t ≠ "=>") (h3 : t ≠ "->") (h4 : t ≠ "(") (h5 : t ≠ ")") :
    ∃ e, Parse s = .error e := by
  obtain ⟨e, he⟩ := step_expected_operator ([] ++ [f] ++ t :: rest)
    ((([] : List String) ++ [f]).length) t
    h1 h2 h3 h4 h5 ⟨none, some f, none⟩ ⟨[]⟩ false ""
  refine ⟨e, ?_⟩
  rw [Parse, hs, parseTokens_eq_run, run_cons, initialLocals, List.length_nil,
    step_funcName hf, ok_bind, run_cons, he]
  rfl

/-- Witness of C18 at `TestFunc :`. -/
theorem C18_witness :
    (splitPrototypeIntoTokens "TestFunc :" = "TestFunc" :: ":" :: [] ∧
      ordinary "TestFunc" = true ∧ ":" ≠ "::" ∧ ":" ≠ "=>" ∧ ":" ≠ "->" ∧ ":" ≠ "(" ∧
      ":" ≠ ")") ∧
    ∃ e, Parse "TestFunc :" = .error e :=
  ⟨by decide, C18_name_must_be_followed_by_operator "TestFunc :" "TestFunc" ":" []
    (by decide) (by decide) (by decide) (by decide) (by decide) (by decide) (by decide)⟩

/-! ## Signatures without a type description (C19) -/

/-- C19: on every empty or white-space-only input `Parse` succeeds with a
signature that has no name, no inputs and no outputs; on every input that is a
single ordinary identifier `f` it succeeds with name `f`, no inputs and no
outputs. -/
theorem C19_no_type_description_accepted :
    (∀ s : String, s.data.all IsSpace = true →
      ∃ d, Parse s = .ok d ∧ d.Name = none ∧ d.inputs = [] ∧ d.outputs = []) ∧
    (∀ f : String, ordinary f = true →
      ∃ d, Parse f = .ok d ∧ d.Name = some f ∧ d.inputs = [] ∧ d.outputs = []) := by
  constructor
  · intro s hs
    refine ⟨⟨none, none, none⟩, ?_, rfl, rfl, rfl⟩
    rw [Parse, splitPrototypeIntoTokens, if_pos ((TrimSpace_eq_empty_iff s).2 hs)]
    rfl
  · intro f hf
    refine ⟨⟨none, some f, none⟩, ?_, rfl, rfl, rfl⟩
    have ht : splitPrototypeIntoTokens (unwords [f]) = [f] :=
      tokens_unwords [f] (fun w hw => by
        rw [List.mem_singleton] at hw
        exact hw ▸ word_of_ordinary hf) (List.mem_singleton.2 rfl) hf
    have hu : unwords [f] = f := rfl
    rw [hu] at ht
    rw [Parse, ht, parseTokens_eq_run, run_cons, initialLocals, List.length_nil,
      step_funcName hf, ok_bind, run_nil, ok_bind]
    rfl

/-- Witness of C19 at the inputs of two spaces and `TestFunc`. -/
theorem C19_witness :
    (("  " : String).data.all IsSpace = true ∧
      ∃ d, Parse "  " = .ok d ∧ d.Name = none ∧ d.inputs = [] ∧ d.outputs = []) ∧
    (ordinary "TestFunc" = true ∧
      ∃ d, Parse "TestFunc" = .ok d ∧ d.Name = some "TestFunc" ∧ d.inputs = [] ∧
        d.outputs = []) :=
  ⟨⟨by decide, C19_no_type_description_accepted.1 "  " (by decide)⟩,
    ⟨by decide, C19_no_type_description_accepted.2 "TestFunc" (by decide)⟩⟩

/-! ## The tokenizer loses nothing but spaces (C20) -/

theorem flatten_modifyHead_cons (x : Char) (L : List (List Char)) (h : L ≠ []) :
    (L.modifyHead (List.cons x)).flatten = x :: L.flatten := by
  cases L with
  | nil => exact absurd rfl h
  | cons a as => simp [List.modifyHead]

theorem flatten_splitOn_space (l : List Char) :
    (l.splitOn ' ').flatten = l.filter (fun c => c != ' ') := by
  unfold List.splitOn
  induction l with
  | nil => simp [List.splitOnP_nil]
  | cons x xs ih =>
    rw [List.splitOnP_cons]
    by_cases hx : x = ' '
    · subst hx
      simp [ih]
    · have h1 : (x == ' ') = false := by simpa using hx
      have h2 : (x != ' ') = true := by simpa using hx
      rw [h1, List.filter_cons, h2]
      simp only [Bool.false_eq_true, if_false, if_true]
      rw [flatten_modifyHead_cons x _ (List.splitOnP_ne_nil _ _), ih]

theorem chunkTokens_flatten (c : String) :
    ((chunkTokens c).map String.data).flatten = c.data := by
  unfold chunkTokens
  split_ifs with h1 h2
  · obtain ⟨-, hh⟩ := h1
    cases hd : c.data with
    | nil => rw [hd] at hh; cases hh
    | cons x xs =>
      rw [hd] at hh
      simp only [List.head?_cons, Option.some.injEq] at hh
      subst hh
      simp
  · obtain ⟨-, hl⟩ := h2
    obtain ⟨ys, hys⟩ := List.getLast?_eq_some_iff.1 hl
    rw [hys]
    simp
  · simp

theorem tokens_flatten (s : String) (h : s.data.all IsSpace = false) :
    ((splitPrototypeIntoTokens s).map String.data).flatten =
      s.data.filter (fun c => c != ' ') := by
  rw [splitPrototypeIntoTokens_eq_reference, tokenizeReference, h]
  simp only [Bool.false_eq_true, if_false]
  rw [← flatten_splitOn_space, Split]
  generalize s.data.splitOn ' ' = chunks
  induction chunks with
  | nil => rfl
  | cons c cs ih =>
    simp only [List.map_cons, List.flatten_cons, List.map_append, List.flatten_append] at ih ⊢
    rw [ih, chunkTokens_flatten]

/-- C20: for every input `s` that is not empty or white-space-only, the tokens
of `splitPrototypeIntoTokens s`, written one after the other, are exactly `s`
with every space character removed. -/
theorem C20_tokens_concatenate_to_input_without_spaces (s : String)
    (h : s.data.all IsSpace = false) :
    String.join (splitPrototypeIntoTokens s) = String.mk (s.data.filter (fun c => c != ' ')) := by
  rw [String.join_eq, tokens_flatten s h]

/-- Witness of C20 at `inc :: Num a -> (a -> a)`. -/
theorem C20_witness :
    ("inc :: Num a -> (a -> a)" : String).data.all IsSpace = false ∧
    String.join (splitPrototypeIntoTokens "inc :: Num a -> (a -> a)") = "inc::Numa->(a->a)" :=
  ⟨by decide, C20_tokens_concatenate_to_input_without_spaces "inc :: Num a -> (a -> a)"
    (by decide)⟩

/-! ## Forbidden characters (C13, C16) -/

/-- A token that fails the forbidden-character check ends the call with that
error, in every state. -/
theorem step_forbidden {t : String} {e : ParseError}
    (h : containsForbiddenCharacter t = some e) (tokens : List String) (pos : Int)
    (v : Locals) : step tokens pos t v = .error e := by
  unfold step
  rw [h]

/-- A parse that succeeds has read no token with a forbidden character. -/
theorem parse_ok_not_forbidden {s : String} {d : FuncDecl} (hok : Parse s = .ok d)
    {t : String} (ht : t ∈ splitPrototypeIntoTokens s) :
    containsForbiddenCharacter t = none := by
  obtain ⟨a, b, hab⟩ := List.append_of_mem ht
  obtain ⟨v, v', hv⟩ := parse_ok_step hok a t b hab
  cases hc : containsForbiddenCharacter t with
  | none => rfl
  | some e =>
    rw [step_forbidden hc] at hv
    cases hv

theorem containsForbiddenCharacter_comma {t : String} (h : ',' ∈ t.data) :
    containsForbiddenCharacter t ≠ none := by
  have : ContainsRune t ',' = true := by simpa [ContainsRune] using h
  simp [containsForbiddenCharacter, this]

theorem not_all_space_of_mem {s : String} {c : Char} (hc : c ∈ s.data)
    (hs : IsSpace c = false) : s.data.all IsSpace = false := by
  rw [List.all_eq_false]
  exact ⟨c, hc, by simp [hs]⟩

/-- C13: for every input string that contains the character `,`, `Parse` does
not return a signature: some token holds the comma, and a scan that reaches it
fails the forbidden-character check. -/
theorem C13_comma_always_rejected (s : String) (h : ',' ∈ s.data) :
    ∀ d, Parse s ≠ .ok d := by
  intro d hok
  have hsp : s.data.all IsSpace = false := not_all_space_of_mem h (by decide)
  have hmem : ',' ∈ ((splitPrototypeIntoTokens s).map String.data).flatten := by
    rw [tokens_flatten s hsp, List.mem_filter]
    exact ⟨h, by decide⟩
  obtain ⟨l, hl, hcl⟩ := List.mem_flatten.1 hmem
  obtain ⟨t, ht, rfl⟩ := List.mem_map.1 hl
  exact containsForbiddenCharacter_comma hcl (parse_ok_not_forbidden hok ht)

/-- Witness of C13 at `TestFunc :: Int a -> String b, c`. -/
theorem C13_witness :
    ',' ∈ ("TestFunc :: Int a -> String b, c" : String).data ∧
    ∀ d, Parse "TestFunc :: Int a -> String b, c" ≠ .ok d :=
  ⟨by decide, C13_comma_always_rejected "TestFunc :: Int a -> String b, c" (by decide)⟩

theorem mem_of_mem_Split {s c : String} (hc : c ∈ Split s ' ') {x : Char} (hx : x ∈ c.data) :
    x ∈ s.data := by
  obtain ⟨l, hl, rfl⟩ := List.mem_map.1 hc
  have : x ∈ (s.data.splitOn ' ').flatten := List.mem_flatten.2 ⟨l, hl, hx⟩
  rw [flatten_splitOn_space] at this
  exact (List.mem_filter.1 this).1

theorem len_ge_two (x y : Char) (r : List Char) : len ⟨x :: y :: r⟩ > 1 := by
  have hx := Char.utf8Size_pos x
  have hy := Char.utf8Size_pos y
  rw [len_cons, len_cons]
  omega

/-- C16: for every input that contains a space-delimited chunk of length at
least 3 that starts with `(` and ends with `)`, `Parse` does not succeed: the
tokenizer applies only the open split, and the remainder, longer than one
character and still holding `)`, is a forbidden token. -/
theorem C16_group_fused_on_both_sides_rejected (s c : String) (hc : c ∈ Split s ' ')
    (hlen : 3 ≤ c.length) (hopen : c.data.head? = some '(')
    (hclose : c.data.getLast? = some ')') :
    (∃ rest : String, chunkTokens c = ["(", rest] ∧ ')' ∈ rest.data ∧
      containsForbiddenCharacter rest ≠ none) ∧
    ∀ d, Parse s ≠ .ok d := by
  obtain ⟨cs⟩ := c
  obtain ⟨ys, hys⟩ := List.getLast?_eq_some_iff.1 hclose
  simp only at hys hopen
  subst hys
  have hrest : ∃ x y r, ys ++ [')'] = '(' :: x :: y :: r := by
    match ys, hlen, hopen with
    | [], hlen, _ => simp [String.length] at hlen
    | [_], hlen, _ => simp [String.length] at hlen
    | a :: b :: r, _, hopen =>
      simp only [List.cons_append, List.head?_cons, Option.some.injEq] at hopen
      subst hopen
      rcases List.eq_nil_or_concat r with rfl | ⟨r', z, rfl⟩
      · exact ⟨b, ')', [], rfl⟩
      · exact ⟨b, (r' ++ [z] ++ [')']).head (by simp), (r' ++ [z] ++ [')']).tail, by simp⟩
  obtain ⟨x, y, r, hxyr⟩ := hrest
  have hin : ')' ∈ x :: y :: r := by
    have : ')' ∈ ys ++ [')'] := by simp
    rw [hxyr] at this
    rcases List.mem_cons.1 this with h | h
    · exact absurd h (by decide)
    · exact h
  have htok : chunkTokens ⟨ys ++ [')']⟩ = ["(", ⟨x :: y :: r⟩] := by
    simp [chunkTokens, hxyr, String.length]
  have hforb : containsForbiddenCharacter ⟨x :: y :: r⟩ ≠ none := by
    have h1 : ContainsRune ⟨x :: y :: r⟩ ')' = true := by simpa [ContainsRune] using hin
    have h2 := len_ge_two x y r
    unfold containsForbiddenCharacter
    split_ifs <;> simp_all
  refine ⟨⟨_, htok, hin, hforb⟩, fun d hok => ?_⟩
  have hx : ')' ∈ (⟨ys ++ [')']⟩ : String).data := by simp
  have hsp : s.data.all IsSpace = false :=
    not_all_space_of_mem (mem_of_mem_Split hc hx) (by decide)
  have hmem : (⟨x :: y :: r⟩ : String) ∈ splitPrototypeIntoTokens s := by
    rw [splitPrototypeIntoTokens_eq_reference, tokenizeReference, hsp]
    simp only [Bool.false_eq_true, if_false, List.mem_flatten, List.mem_map]
    exact ⟨_, ⟨_, hc, rfl⟩, by rw [htok]; simp⟩
  exact hforb (parse_ok_not_forbidden hok hmem)

/-- Witness of C16 at `TestFunc :: Int a -> (b)`. -/
theorem C16_witness :
    ("(b)" ∈ Split "TestFunc :: Int a -> (b)" ' ' ∧ 3 ≤ ("(b)" : String).length ∧
      ("(b)" : String).data.head? = some '(' ∧ ("(b)" : String).data.getLast? = some ')') ∧
    (∃ rest : String, chunkTokens "(b)" = ["(", rest] ∧ ')' ∈ rest.data ∧
      containsForbiddenCharacter rest ≠ none) ∧
    ∀ d, Parse "TestFunc :: Int a -> (b)" ≠ .ok d :=
  ⟨by decide, C16_group_fused_on_both_sides_rejected "TestFunc :: Int a -> (b)" "(b)"
    (by decide) (by decide) (by decide) (by decide)⟩

/-! ## Group symbols (C15, C17) -/

theorem forcedState_close (st : State) :
    forcedState CLOSE_OUTPUT_BLOCK st = .CLOSE_OUTPUT_BLOCK_STATE := by
  have h1 : CLOSE_OUTPUT_BLOCK ≠ OPERATOR_TOKEN := by decide
  have h2 : CLOSE_OUTPUT_BLOCK ≠ INSTANCE_CONTEXT := by decide
  have h3 : CLOSE_OUTPUT_BLOCK ≠ FUNC_CONSTRUCTOR := by decide
  simp [forcedState, h1, h2, h3]

/-- The close state is reached by the token `)` or kept from before. -/
theorem forcedState_eq_close {t : String} {st : State}
    (h : forcedState t st = .CLOSE_OUTPUT_BLOCK_STATE) :
    t = CLOSE_OUTPUT_BLOCK ∨ st = .CLOSE_OUTPUT_BLOCK_STATE := by
  rcases forcedState_cases t st with ⟨-, e⟩ | ⟨-, e⟩ | ⟨-, e⟩ | ⟨ht, -⟩ | ⟨-, -, -, -, e⟩
  · rw [e] at h; cases h
  · rw [e] at h; cases h
  · rw [e] at h; cases h
  · exact Or.inl ht
  · exact Or.inr (e ▸ h)

theorem concat_eq_append_cons {pre p r : List String} {t x : String}
    (h : pre ++ [t] = p ++ x :: r) :
    (r = [] ∧ pre = p ∧ t = x) ∨ ∃ r', r = r' ++ [t] ∧ pre = p ++ x :: r' := by
  rcases List.eq_nil_or_concat r with rfl | ⟨r', z, rfl⟩
  · obtain ⟨h1, h2⟩ := List.append_inj' h rfl
    exact Or.inl ⟨rfl, h1, by simpa using h2⟩
  · rw [List.concat_eq_append] at h ⊢
    have h' : pre ++ [t] = (p ++ x :: r') ++ [z] := by simpa using h
    obtain ⟨h1, h2⟩ := List.append_inj' h' rfl
    have : t = z := by simpa using h2
    exact Or.inr ⟨r', by rw [this], h1⟩

theorem invGroup_step (pre : List String) (t : String) (rest : List String) (v v' : Locals)
    (hinv : InvGroup pre (t :: rest) v) (htr : Transition pre t rest v v') :
    InvGroup (pre ++ [t]) rest v' := by
  obtain ⟨h1, h2, h3, h4⟩ := hinv
  have hne : t :: rest ≠ [] := by simp
  -- the parts of the invariant that only look at the tokens and the flags
  have key : ∀ (blk' : Bool) (st' : State),
      (blk' = true → OPEN_OUTPUT_BLOCK ∈ pre ++ [t]) →
      (st' = .CLOSE_OUTPUT_BLOCK_STATE → rest = []) →
      (t = CLOSE_OUTPUT_BLOCK → rest = [] ∧ OPEN_OUTPUT_BLOCK ∈ pre) →
      (blk' = true → OPEN_OUTPUT_BLOCK ∈ pre ++ [t]) ∧
      (st' = .CLOSE_OUTPUT_BLOCK_STATE → rest = []) ∧
      (∀ p r, pre ++ [t] = p ++ CLOSE_OUTPUT_BLOCK :: r →
        r = [] ∧ rest = [] ∧ OPEN_OUTPUT_BLOCK ∈ p) := by
    intro blk' st' a b c
    refine ⟨a, b, ?_⟩
    intro p r hpr
    rcases concat_eq_append_cons hpr with ⟨hr, hp, ht⟩ | ⟨r', -, hp⟩
    · obtain ⟨c1, c2⟩ := c ht
      exact ⟨hr, c1, hp ▸ c2⟩
    · exact absurd (h4 p r' hp).2.1 hne
  have notClose : ∀ st, forcedState t st ≠ .CLOSE_OUTPUT_BLOCK_STATE →
      t = CLOSE_OUTPUT_BLOCK → rest = [] ∧ OPEN_OUTPUT_BLOCK ∈ pre := by
    intro st hst ht
    rw [ht, forcedState_close] at hst
    exact absurd rfl hst
  cases htr with
  | openBlock fd buf blk prev st ht =>
    obtain ⟨a, b, c⟩ := key true st (fun _ => by simp [ht])
      (fun hs => absurd (h2 hs) hne) (fun hc => absurd (ht ▸ hc) (by decide))
    exact ⟨a, b, fun hr => absurd (h3 hr).2 hne, c⟩
  | funcName recv name typ buf blk prev st _ hs =>
    obtain ⟨a, b, c⟩ := key blk .OPERATOR_TOKEN_STATE
      (fun hb => List.mem_append_left _ (h1 hb)) (fun hs' => by cases hs')
      (notClose st (by rw [hs]; simp))
    exact ⟨a, b, fun hr => absurd (h3 hr).2 hne, c⟩
  | operator recv name typ buf blk prev st ht _ =>
    obtain ⟨a, b, c⟩ := key blk .ARG_TYPE_STATE
      (fun hb => List.mem_append_left _ (h1 hb)) (fun hs' => by cases hs')
      (fun hc => absurd (ht ▸ hc) (by decide))
    exact ⟨a, b, fun hr => absurd (h3 hr).2 hne, c⟩
  | instanceContext recv name typ buf blk prev st _ _ =>
    exact absurd (h3 (by simp)).2 hne
  | argType fd buf blk prev st _ hs _ _ _ =>
    obtain ⟨a, b, c⟩ := key blk .ARG_NAME_STATE
      (fun hb => List.mem_append_left _ (h1 hb)) (fun hs' => by cases hs')
      (notClose st (by rw [hs]; simp))
    exact ⟨a, b, fun hr => absurd (h3 hr).2 hne, c⟩
  | infer fd buf blk prev st _ hs _ _ =>
    obtain ⟨a, b, c⟩ := key blk .ARG_TYPE_STATE
      (fun hb => List.mem_append_left _ (h1 hb)) (fun hs' => by cases hs')
      (notClose st (by rw [hs]; simp))
    exact ⟨a, b, fun hr => absurd (h3 hr).2 hne, c⟩
  | argName fd init ns ty blk prev st _ hs _ =>
    obtain ⟨a, b, c⟩ := key blk .ARG_NAME_STATE
      (fun hb => List.mem_append_left _ (h1 hb)) (fun hs' => by cases hs')
      (notClose st (by rw [hs]; simp))
    exact ⟨a, b, fun hr => absurd (h3 hr).2 hne, c⟩
  | flush recv name tp buf prev st _ hs _ =>
    obtain ⟨a, b, c⟩ := key false .ARG_TYPE_STATE
      (fun hb => by cases hb) (fun hs' => by cases hs')
      (notClose st (by rw [hs]; simp))
    exact ⟨a, b, fun hr => absurd (h3 hr).2 hne, c⟩
  | arrowInBlock fd buf prev st _ hs _ =>
    obtain ⟨a, b, c⟩ := key true .ARG_TYPE_STATE
      (fun hb => List.mem_append_left _ (h1 hb)) (fun hs' => by cases hs')
      (notClose st (by rw [hs]; simp))
    exact ⟨a, b, fun hr => absurd (h3 hr).2 hne, c⟩
  | close recv name typ buf prev st _ hs hr =>
    have ht : t = CLOSE_OUTPUT_BLOCK := by
      rcases forcedState_eq_close hs with h | h
      · exact h
      · exact absurd (h2 h) hne
    obtain ⟨a, b, c⟩ := key true .CLOSE_OUTPUT_BLOCK_STATE
      (fun hb => List.mem_append_left _ (h1 hb)) (fun _ => hr)
      (fun _ => ⟨hr, h1 rfl⟩)
    exact ⟨a, b, fun _ => ⟨by rw [ht, List.getLast?_concat], hr⟩, c⟩

theorem invGroup_of_parse_ok {s : String} {d : FuncDecl} (hok : Parse s = .ok d) :
    ∃ v, finish v = .ok d ∧ InvGroup (splitPrototypeIntoTokens s) [] v := by
  obtain ⟨v, hrun, hfin⟩ := parse_ok_run hok
  refine ⟨v, hfin, ?_⟩
  refine run_invariant (splitPrototypeIntoTokens s) InvGroup
    (fun pre t rest v v' _ hP htr => invGroup_step pre t rest v v' hP htr)
    (splitPrototypeIntoTokens s) [] initialLocals v rfl ?_ hrun
  exact ⟨by simp [initialLocals], by simp [initialLocals], by simp [initialLocals],
    by simp⟩

/-- C15: for every input on which `Parse` succeeds, a token `)` of the token
sequence is its last token and a token `(` occurs before it. -/
theorem C15_close_only_last_after_open (s : String) (d : FuncDecl) (hok : Parse s = .ok d)
    (pre rest : List String) (ht : splitPrototypeIntoTokens s = pre ++ ")" :: rest) :
    rest = [] ∧ "(" ∈ pre := by
  obtain ⟨v, -, -, -, -, h4⟩ := invGroup_of_parse_ok hok
  obtain ⟨hr, -, hp⟩ := h4 pre rest ht
  exact ⟨hr, hp⟩

/-- Witness of C15 at `TestFunc :: Int a -> (Int b)`. -/
theorem C15_witness :
    (Parse "TestFunc :: Int a -> (Int b)" =
        .ok ⟨some ⟨[param "b" "Int"]⟩, some "TestFunc", some ⟨some ⟨[param "a" "Int"]⟩⟩⟩ ∧
      splitPrototypeIntoTokens "TestFunc :: Int a -> (Int b)" =
        ["TestFunc", "::", "Int", "a", "->", "(", "Int", "b"] ++ ")" :: []) ∧
    (([] : List String) = [] ∧ "(" ∈ ["TestFunc", "::", "Int", "a", "->", "(", "Int", "b"]) :=
  ⟨by decide, C15_close_only_last_after_open "TestFunc :: Int a -> (Int b)"
    ⟨some ⟨[param "b" "Int"]⟩, some "TestFunc", some ⟨some ⟨[param "a" "Int"]⟩⟩⟩ (by decide)
    ["TestFunc", "::", "Int", "a", "->", "(", "Int", "b"] [] (by decide)⟩

/-- What `finish` returns when `Recv` is still nil: no output, or the one field
of the buffer. -/
theorem finish_outputs {v : Locals} {d : FuncDecl} (h : finish v = .ok d)
    (hr : v.funcDecleration.Recv = none) : d.outputs = [] ∨ ∃ fld, d.outputs = [fld] := by
  obtain ⟨⟨recv, name, typ⟩, ⟨buf⟩, blk, prev, st⟩ := v
  simp only at hr
  subst hr
  unfold finish at h
  split at h
  · cases h; exact Or.inl rfl
  · split at h
    · rename_i fld hb _
      simp only at hb
      cases h
      exact Or.inr ⟨fld, by simp [FuncDecl.outputs, hb]⟩
    · cases h
  · cases h

/-- C17: for every input on which `Parse` succeeds and whose last token is not
`)`, the output list is empty or holds exactly one field; the input
`TestFunc :: Int a -> (String b -> Int c`, whose group is never closed, is an
error. -/
theorem C17_multiple_outputs_need_closed_group (s : String) (d : FuncDecl)
    (hok : Parse s = .ok d) (hlast : (splitPrototypeIntoTokens s).getLast? ≠ some ")") :
    (d.outputs = [] ∨ ∃ fld, d.outputs = [fld]) ∧
    Parse "TestFunc :: Int a -> (String b -> Int c" = .error .invalidOutputBlock := by
  obtain ⟨v, hfin, -, -, h3, -⟩ := invGroup_of_parse_ok hok
  refine ⟨finish_outputs hfin ?_, by decide⟩
  by_contra hne
  exact hlast (h3 hne).1

/-- Witness of C17 at `TestFunc :: Int a -> String b`. -/
theorem C17_witness :
    (Parse "TestFunc :: Int a -> String b" =
        .ok ⟨some ⟨[param "b" "String"]⟩, some "TestFunc", some ⟨some ⟨[param "a" "Int"]⟩⟩⟩ ∧
      (splitPrototypeIntoTokens "TestFunc :: Int a -> String b").getLast? ≠ some ")") ∧
    (([param "b" "String"] : List Field) = [] ∨
        ∃ fld, ([param "b" "String"] : List Field) = [fld]) ∧
    Parse "TestFunc :: Int a -> (String b -> Int c" = .error .invalidOutputBlock :=
  ⟨by decide, C17_multiple_outputs_need_closed_group "TestFunc :: Int a -> String b"
    ⟨some ⟨[param "b" "String"]⟩, some "TestFunc", some ⟨some ⟨[param "a" "Int"]⟩⟩⟩
    (by decide) (by decide)⟩

/-! ## The name (C12) -/

theorem finish_name {v : Locals} {d : FuncDecl} (h : finish v = .ok d) :
    d.Name = v.funcDecleration.Name := by
  obtain ⟨fd, ⟨buf⟩, blk, prev, st⟩ := v
  unfold finish at h
  split at h
  · cases h; rfl
  · split at h
    · cases h; rfl
    · cases h
  · cases h

/-- The first iteration, on a token that is neither `(` nor `::`, records it as
the name. -/
theorem invName_first (t : String) (rest : List String) (v v' : Locals)
    (hv : v = initialLocals) (h1 : t ≠ OPEN_OUTPUT_BLOCK) (h2 : t ≠ OPERATOR_TOKEN)
    (htr : Transition [] t rest v v') :
    v'.currentState ≠ .FUNC_NAME_STATE ∧ v'.funcDecleration.Name = some t := by
  have hst : v.currentState = .FUNC_NAME_STATE := by rw [hv]; rfl
  have hblk : v.inOutputBlock = false := by rw [hv]; rfl
  have hrecv : v.funcDecleration.Recv = none := by rw [hv]; rfl
  have htyp : v.funcDecleration.Typ = none := by rw [hv]; rfl
  have noType : ∀ st, st = State.FUNC_NAME_STATE → forcedState t st ≠ .ARG_TYPE_STATE := by
    intro st hs h
    obtain ⟨e, -⟩ := forcedState_unforced (Or.inl h)
    rw [e, hs] at h
    cases h
  have noName : ∀ st, st = State.FUNC_NAME_STATE → forcedState t st ≠ .ARG_NAME_STATE := by
    intro st hs h
    obtain ⟨e, -⟩ := forcedState_unforced (Or.inr (Or.inl h))
    rw [e, hs] at h
    cases h
  cases htr with
  | openBlock fd buf blk prev st ht => exact absurd ht h1
  | funcName recv name typ buf blk prev st _ _ => exact ⟨by simp, rfl⟩
  | operator recv name typ buf blk prev st ht _ => exact absurd ht h2
  | instanceContext recv name typ buf blk prev st _ _ => simp at hrecv
  | argType fd buf blk prev st _ hs _ _ _ => exact absurd hs (noType st hst)
  | infer fd buf blk prev st _ hs _ _ => exact absurd hs (noType st hst)
  | argName fd init ns ty blk prev st _ hs _ => exact absurd hs (noName st hst)
  | flush recv name tp buf prev st _ _ _ => simp at htyp
  | arrowInBlock fd buf prev st _ _ _ => simp at hblk
  | close recv name typ buf prev st _ _ _ => simp at hblk

/-- After the first token no iteration records a name again. -/
theorem invName_later (first : String) (pre : List String) (t : String) (rest : List String)
    (v v' : Locals) (hs : v.currentState ≠ .FUNC_NAME_STATE)
    (hn : v.funcDecleration.Name = some first) (htr : Transition pre t rest v v') :
    v'.currentState ≠ .FUNC_NAME_STATE ∧ v'.funcDecleration.Name = some first := by
  cases htr with
  | openBlock fd buf blk prev st _ => exact ⟨hs, hn⟩
  | funcName recv name typ buf blk prev st _ hf =>
    obtain ⟨e, -⟩ := forcedState_unforced (Or.inr (Or.inr hf))
    exact absurd (e ▸ hf) hs
  | operator recv name typ buf blk prev st _ _ => exact ⟨by simp, hn⟩
  | instanceContext recv name typ buf blk prev st _ _ => exact ⟨by simp, hn⟩
  | argType fd buf blk prev st _ _ _ _ _ => exact ⟨by simp, hn⟩
  | infer fd buf blk prev st _ _ _ _ => exact ⟨by simp, hn⟩
  | argName fd init ns ty blk prev st _ _ _ => exact ⟨by simp, hn⟩
  | flush recv name tp buf prev st _ _ _ => exact ⟨by simp, hn⟩
  | arrowInBlock fd buf prev st _ _ _ => exact ⟨by simp, hn⟩
  | close recv name typ buf prev st _ _ _ => exact ⟨by simp, hn⟩

/-- C12 (as amended): for every input on which `Parse` succeeds and whose
first token is neither `(` nor `::`, the returned signature has a name and
that name is the first token of the token sequence. -/
theorem C12_first_token_is_the_name (s : String) (d : FuncDecl) (first : String)
    (rest : List String) (hok : Parse s = .ok d)
    (ht : splitPrototypeIntoTokens s = first :: rest)
    (h1 : first ≠ "(") (h2 : first ≠ "::") : d.Name = some first := by
  obtain ⟨v, hrun, hfin⟩ := parse_ok_run hok
  have hinv : InvName first (splitPrototypeIntoTokens s) v := by
    refine run_invariant (splitPrototypeIntoTokens s) (fun pre _ v => InvName first pre v) ?_
      (splitPrototypeIntoTokens s) [] initialLocals v rfl ⟨fun _ => rfl, fun h => absurd rfl h⟩
      hrun
    intro pre t tl v v' hpre hP htr
    refine ⟨fun h => absurd h (by simp), fun _ => ?_⟩
    cases pre with
    | nil =>
      rw [ht, List.nil_append, List.cons.injEq] at hpre
      obtain ⟨rfl, -⟩ := hpre
      exact invName_first t tl v v' (hP.1 rfl) h1 h2 htr
    | cons p ps =>
      obtain ⟨hs, hn⟩ := hP.2 (by simp)
      exact invName_later first (p :: ps) t tl v v' hs hn htr
  rw [finish_name hfin]
  exact (hinv.2 (by rw [ht]; simp)).2

/-- Witness of C12 (as amended) at `TestFunc :: Int a -> String b`. -/
theorem C12_witness :
    (Parse "TestFunc :: Int a -> String b" =
        .ok ⟨some ⟨[param "b" "String"]⟩, some "TestFunc", some ⟨some ⟨[param "a" "Int"]⟩⟩⟩ ∧
      splitPrototypeIntoTokens "TestFunc :: Int a -> String b" =
        "TestFunc" :: ["::", "Int", "a", "->", "String", "b"] ∧
      "TestFunc" ≠ "(" ∧ "TestFunc" ≠ "::") ∧
    (some "TestFunc" : Option String) = some "TestFunc" :=
  ⟨by decide, C12_first_token_is_the_name "TestFunc :: Int a -> String b"
    ⟨some ⟨[param "b" "String"]⟩, some "TestFunc", some ⟨some ⟨[param "a" "Int"]⟩⟩⟩
    "TestFunc" ["::", "Int", "a", "->", "String", "b"] (by decide) (by decide) (by decide)
    (by decide)⟩

/-- C12 (counterexamples to the claim as stated): `Parse` accepts `( f`, whose
first token is `(`, with the name `f`; it accepts `:: Int a`, whose first token
is `::`, and `(` with no name at all. -/
theorem C12_counterexample :
    (splitPrototypeIntoTokens "( f" = ["(", "f"] ∧
      Parse "( f" = .ok ⟨none, some "f", none⟩) ∧
    (splitPrototypeIntoTokens ":: Int a" = ["::", "Int", "a"] ∧
      Parse ":: Int a" = .ok ⟨some ⟨[param "a" "Int"]⟩, none, some ⟨none⟩⟩) ∧
    (splitPrototypeIntoTokens "(" = ["("] ∧ Parse "(" = .ok ⟨none, none, none⟩) := by
  decide

/-! ## A group that is opened and never closed (C21) -/

/-- The tokens of `f :: T a -> (U b`. -/
theorem tokens_unclosed_group {f T a U b : String} (hf : ordinary f = true)
    (hT : ordinary T = true) (ha : ordinary a = true) (hU : ordinary U = true)
    (hb : ordinary b = true) :
    splitPrototypeIntoTokens (unwords [f, "::", T, a, "->", "(" ++ U, b]) =
      f :: OPERATOR_TOKEN :: T :: a :: FUNC_CONSTRUCTOR :: OPEN_OUTPUT_BLOCK :: U :: [b] := by
  have hsp : ∀ w ∈ [f, "::", T, a, "->", "(" ++ U, b], ' ' ∉ w.data := by
    intro w hw
    simp only [List.mem_cons, List.mem_singleton, List.not_mem_nil, or_false] at hw
    rcases hw with rfl | rfl | rfl | rfl | rfl | rfl | rfl
    · exact word_no_space (word_of_ordinary hf)
    · decide
    · exact word_no_space (word_of_ordinary hT)
    · exact word_no_space (word_of_ordinary ha)
    · decide
    · simp only [String.data_append, List.mem_append, not_or]
      exact ⟨by decide, word_no_space (word_of_ordinary hU)⟩
    · exact word_no_space (word_of_ordinary hb)
  rw [tokens_of_chunks _ hsp (List.mem_cons_self f _) hf]
  simp only [List.map_cons, List.map_nil, chunkTokens_plain (plain_of_ordinary hf),
    chunkTokens_plain plain_operator, chunkTokens_plain (plain_of_ordinary hT),
    chunkTokens_plain (plain_of_ordinary ha), chunkTokens_plain plain_arrow,
    chunkTokens_open (plain_of_ordinary hU), chunkTokens_plain (plain_of_ordinary hb)]
  rfl

/-- C21: for all ordinary identifiers `f`, `T`, `a`, `U`, `b`,
`Parse "f :: T a -> (U b"`, whose group is opened and never closed, succeeds
with inputs `[{a:T}]` and outputs `[{b:U}]`, the same result as for the closed
form `f :: T a -> (U b)`. -/
theorem C21_unclosed_single_output_group_accepted (f T a U b : String)
    (hf : ordinary f = true) (hT : ordinary T = true) (ha : ordinary a = true)
    (hU : ordinary U = true) (hb : ordinary b = true) :
    ∃ d, Parse (unwords [f, "::", T, a, "->", "(" ++ U, b]) = .ok d ∧
      d.inputs = [param a T] ∧ d.outputs = [param b U] ∧
      Parse (unwords [f, "::", T, a, "->", "(" ++ U ++ " " ++ b ++ ")"]) = .ok d := by
  refine ⟨⟨some ⟨[param b U]⟩, some f, some ⟨some ⟨[param a T]⟩⟩⟩, ?_, rfl, rfl, ?_⟩
  · rw [Parse, tokens_unclosed_group hf hT ha hU hb, parseTokens_eq_run,
      run_open_group hf hT ha, run_typed hU hb _ _ _ _ _ _ (by simp [hasName]), run_nil,
      ok_bind]
    exact finish_single _ _ _ _ _ _ _ _
  · have := grouped_outputs f T a U b [] hf hT ha hU hb (by simp) (by simp)
    simpa [unwords, typedOutputs, String.append_assoc] using this

/-- Witness of C21 at `TestFunc :: Int a -> (String b`. -/
theorem C21_witness :
    (ordinary "TestFunc" = true ∧ ordinary "Int" = true ∧ ordinary "a" = true ∧
      ordinary "String" = true ∧ ordinary "b" = true) ∧
    ∃ d, Parse "TestFunc :: Int a -> (String b" = .ok d ∧
      d.inputs = [param "a" "Int"] ∧ d.outputs = [param "b" "String"] ∧
      Parse "TestFunc :: Int a -> (String b)" = .ok d :=
  ⟨by decide, C21_unclosed_single_output_group_accepted "TestFunc" "Int" "a" "String" "b"
    (by decide) (by decide) (by decide) (by decide) (by decide)⟩

end FuncTypes
